import Mathlib

/-!
Signal-Equalizer: FFT core, equalizer engine and spectrogram engine (STFT).

Shallow embedding of `src/Server/Cppserver.cpp` (the same functions appear in
`src/Server/server.cpp`).  `double` is read as `ℝ`, `std::complex<double>` as `ℂ`
(exact arithmetic), `std::vector<T>` as `List T`, and `size_t` as `ℕ` with an
explicit `% 2 ^ 64` where the code can wrap.  In-place writes `v[i] = x` are
`List.set`, reads `v[i]` are `List.getD v i 0`.  Definitions over `ℕ` are executable;
those over `ℝ` and `ℂ` (cosine, sine, order tests on reals) are not.
-/

namespace SignalEqualizer

/-! ## `next_power_of_2` -/

/-- The `while (p < n) p <<= 1;` loop of `next_power_of_2` on 64-bit `size_t`.
`none` means the fuel ran out. -/
def next_power_of_2_loop : ℕ → ℕ → ℕ → Option ℕ
  | 0, _, _ => none
  | fuel + 1, n, p =>
    if p < n then next_power_of_2_loop fuel n ((p <<< 1) % 2 ^ 64) else some p

/-- The function `size_t next_power_of_2(size_t n)`.  After 64 shifts `p` has wrapped to `0`
and stays there, so 65 rounds of fuel decide whether the loop ever exits. -/
def next_power_of_2 (n : ℕ) : Option ℕ :=
  next_power_of_2_loop 65 n 1

/-! ## `fft` -/

/-- The twiddle step `wn` of `fft` for a buffer of size `n`:
`angle = 2 * PI / n * (invert ? 1 : -1)`, `wn = (cos angle, sin angle)`. -/
noncomputable def fftWn (n : ℕ) (invert : Bool) : ℂ :=
  let angle : ℝ := 2 * Real.pi / (n : ℝ) * (if invert then 1 else -1)
  ⟨Real.cos angle, Real.sin angle⟩

/-- One round of the combine loop of `fft` (the body of `for i < n / 2`), acting on
the buffer `a` and the running twiddle `w`. -/
noncomputable def fftCombineStep (even odd : List ℂ) (wn : ℂ) (invert : Bool) (n : ℕ)
    (st : List ℂ × ℂ) (i : ℕ) : List ℂ × ℂ :=
  let a := st.1
  let w := st.2
  let a := a.set i (even.getD i 0 + w * odd.getD i 0)
  let a := a.set (i + n / 2) (even.getD i 0 - w * odd.getD i 0)
  let a :=
    if invert then
      let a := a.set i (a.getD i 0 / 2)
      a.set (i + n / 2) (a.getD (i + n / 2) 0 / 2)
    else a
  (a, w * wn)

/-- The function `void fft(std::vector<std::complex<double>> &a, bool invert)`; the returned list
is the content of `a` on exit. -/
noncomputable def fft (a : List ℂ) (invert : Bool) : List ℂ :=
  if a.length ≤ 1 then a
  else
    let n := a.length
    let even := fft ((List.range (n / 2)).map fun i => a.getD (2 * i) 0) invert
    let odd := fft ((List.range (n / 2)).map fun i => a.getD (2 * i + 1) 0) invert
    ((List.range (n / 2)).foldl (fftCombineStep even odd (fftWn n invert) invert n) (a, 1)).1
termination_by a.length
decreasing_by
  all_goals simp_wf
  all_goals omega

/-! ## Request handlers -/

/-- The record `Band` of the `/applyEqualizer` handler: three `double` fields `left`,
`right`, `gain`. -/
structure Band where
  left : ℝ
  right : ℝ
  gain : ℝ

/-- The padded buffer: `std::vector<std::complex<double>> data(n);` followed by
`for (i < original_size) data[i] = samples[i];`. -/
def padData (samples : List ℝ) (n : ℕ) : List ℂ :=
  (List.range samples.length).foldl
    (fun data i => data.set i ((samples.getD i 0 : ℝ) : ℂ)) (List.replicate n 0)

/-- Zero-pad to `n = next_power_of_2(samples.size())` and run the forward `fft`
(lines 126–131 of `/calculatefft`, lines 165–172 of `/applyEqualizer`).
Returns `n` and the spectrum. -/
noncomputable def forwardSpectrum (samples : List ℝ) : Option (ℕ × List ℂ) :=
  (next_power_of_2 samples.length).map fun n => (n, fft (padData samples n) false)

/-- The body of the inner gain loop at bin `i` (lines 177–181). -/
noncomputable def applyBandStep (n : ℕ) (fs : ℝ) (band : Band) (data : List ℂ) (i : ℕ) :
    List ℂ :=
  let freq : ℝ := (i : ℝ) * fs / (n : ℝ)
  if freq ≥ band.left ∧ freq ≤ band.right then
    let data := data.set i (data.getD i 0 * (band.gain : ℂ))
    if 0 < i ∧ i < n / 2 then data.set (n - i) (data.getD (n - i) 0 * (band.gain : ℂ))
    else data
  else data

/-- The inner loop of the gain stage for one band: `for (i = 0; i <= n / 2; ++i)`. -/
noncomputable def applyBand (n : ℕ) (fs : ℝ) (data : List ℂ) (band : Band) : List ℂ :=
  (List.range (n / 2 + 1)).foldl (applyBandStep n fs band) data

/-- The gain stage: `for (const auto& band : bands)`. -/
noncomputable def applyGains (n : ℕ) (fs : ℝ) (data : List ℂ) (bands : List Band) : List ℂ :=
  bands.foldl (applyBand n fs) data

/-- The frequency axis `frequencies[i] = i * fs / n` for `i = 0 .. n / 2`. -/
noncomputable def frequencyAxis (n : ℕ) (fs : ℝ) : List ℝ :=
  (List.range (n / 2 + 1)).map fun (i : ℕ) => (i : ℝ) * fs / (n : ℝ)

/-- The magnitude axis `magnitudes[i] = std::abs(data[i])` for `i = 0 .. n / 2`. -/
noncomputable def magnitudeAxis (n : ℕ) (data : List ℂ) : List ℝ :=
  (List.range (n / 2 + 1)).map fun (i : ℕ) => Complex.abs (data.getD i 0)

/-- Response of `POST /calculatefft`. -/
structure FftResponse where
  frequencies : List ℝ
  magnitudes : List ℝ

/-- The computation of the `POST /calculatefft` handler. -/
noncomputable def calculatefft (samples : List ℝ) (fs : ℝ) : Option FftResponse :=
  (forwardSpectrum samples).map fun nd =>
    { frequencies := frequencyAxis nd.1 fs, magnitudes := magnitudeAxis nd.1 nd.2 }

/-- The spectrum of `/applyEqualizer` after the gain loop (lines 165–183). -/
noncomputable def gainAdjustedSpectrum (samples : List ℝ) (fs : ℝ) (bands : List Band) :
    Option (ℕ × List ℂ) :=
  (forwardSpectrum samples).map fun nd => (nd.1, applyGains nd.1 fs nd.2 bands)

/-- Response of `POST /applyEqualizer`. -/
structure EqualizerResponse where
  samples : List ℝ
  frequencies : List ℝ
  magnitudes : List ℝ

/-- The computation of the `POST /applyEqualizer` handler. -/
noncomputable def applyEqualizer (samples : List ℝ) (fs : ℝ) (bands : List Band) :
    Option EqualizerResponse :=
  (gainAdjustedSpectrum samples fs bands).map fun nd =>
    let data := fft nd.2 true
    { samples := (List.range samples.length).map fun (i : ℕ) => (data.getD i 0).re,
      frequencies := frequencyAxis nd.1 fs,
      magnitudes := magnitudeAxis nd.1 nd.2 }

/-! ## `stft` and the `/spectrogram` handler -/

/-- The Hann window of `stft`:
`window[n] = 0.5 - 0.5 * cos(2 * PI * n / (windowSize - 1))` for `n < windowSize`.
For `windowSize = 0` the `size_t` difference wraps in the code, but the window is then
empty and the value is never used, so the truncated difference is kept here. -/
noncomputable def hannWindow (windowSize : ℕ) : List ℝ :=
  (List.range windowSize).map fun (n : ℕ) =>
    0.5 - 0.5 * Real.cos (2 * Real.pi * (n : ℝ) / ((windowSize - 1 : ℕ) : ℝ))

/-- The frame buffer of `stft` for the frame starting at `start` (lines 73–82): the buffer
is reset to zeros, then every index `i < windowSize` is written. -/
def stftFrameBuffer (samples window : List ℝ) (windowSize start : ℕ) : List ℂ :=
  let remain := samples.length - start
  (List.range windowSize).foldl
    (fun (fftData : List ℂ) (i : ℕ) =>
      if i < remain then
        fftData.set i ((samples.getD (start + i) 0 * window.getD i 0 : ℝ) : ℂ)
      else fftData.set i 0)
    (List.replicate windowSize 0)

/-- One frame of `stft` (lines 73–90): fill the buffer, run `fft(fftData, false)` on it as
it is (`nfft = windowSize`), and take the magnitudes of bins `0 .. nfft / 2`. -/
noncomputable def stftFrame (samples window : List ℝ) (windowSize start : ℕ) : List ℝ :=
  let nfft := windowSize
  let fftData := fft (stftFrameBuffer samples window windowSize start) false
  (List.range (nfft / 2 + 1)).map fun (k : ℕ) => Complex.abs (fftData.getD k 0)

/-- The frame loop of `stft`: `for (start = 0; start < samples.size(); start += hopSize)`
on 64-bit `size_t`, pushing one frame per round.  `none` means the fuel ran out. -/
noncomputable def stftLoop (samples window : List ℝ) (windowSize hopSize : ℕ) :
    ℕ → ℕ → List (List ℝ) → Option (List (List ℝ))
  | 0, _, _ => none
  | fuel + 1, start, magnitudeFrames =>
    if start < samples.length then
      stftLoop samples window windowSize hopSize fuel ((start + hopSize) % 2 ^ 64)
        (magnitudeFrames ++ [stftFrame samples window windowSize start])
    else some magnitudeFrames

/-- The function `void stft(samples, windowSize, hopSize, magnitudeFrames)`; the result is
the content of `magnitudeFrames` on exit.  For `samples.size() ≤ 2 ^ 63` the offset never
wraps, and `samples.size() + 1` rounds of fuel run out only when `hopSize = 0`, where the
loop never exits. -/
noncomputable def stft (samples : List ℝ) (windowSize hopSize : ℕ)
    (magnitudeFrames : List (List ℝ)) : Option (List (List ℝ)) :=
  stftLoop samples (hannWindow windowSize) windowSize hopSize (samples.length + 1) 0
    magnitudeFrames

/-- The transpose of the `/spectrogram` handler (lines 240–243):
`z[f][t] = magnitudeFrames[t][f]` for `f < numFreqBins`, `t < numFrames`. -/
def transposeFrames (numFreqBins : ℕ) (magnitudeFrames : List (List ℝ)) : List (List ℝ) :=
  (List.range numFreqBins).map fun (f : ℕ) =>
    (List.range magnitudeFrames.length).map fun (t : ℕ) =>
      (magnitudeFrames.getD t []).getD f 0

/-- Response of `POST /spectrogram`. -/
structure SpectrogramResponse where
  z : List (List ℝ)
  x : List ℝ
  y : List ℝ

/-- The computation of the `POST /spectrogram` handler (lines 222–248), with its two local
constants `windowSize` and `hopSize` as parameters. -/
noncomputable def spectrogramWith (windowSize hopSize : ℕ) (samples : List ℝ) (fs : ℝ) :
    Option SpectrogramResponse :=
  (stft samples windowSize hopSize []).map fun magnitudeFrames =>
    let nfft := windowSize
    let numFreqBins := nfft / 2 + 1
    let numFrames := magnitudeFrames.length
    { z := transposeFrames numFreqBins magnitudeFrames,
      x := (List.range numFrames).map fun (t : ℕ) => ((t * hopSize : ℕ) : ℝ) / fs,
      y := (List.range numFreqBins).map fun (k : ℕ) => (k : ℝ) * fs / (nfft : ℝ) }

/-- The `POST /spectrogram` handler: `windowSize = 2048`, `hopSize = windowSize / 4`. -/
noncomputable def spectrogram (samples : List ℝ) (fs : ℝ) : Option SpectrogramResponse :=
  spectrogramWith 2048 (2048 / 4) samples fs

/-! ## Vocabulary of the statements -/

/-- The divisor applied by one combine level of `fft` (`a[i] /= 2` when `invert`). -/
def levelDivisor (invert : Bool) : ℂ := if invert then 2 else 1

/-- The frequency index that governs bin `j` of a length-`n` spectrum: `m = min(j, n - j)`
(so `m = 0` for `j = 0`). -/
def mirrorIndex (n j : ℕ) : ℕ := min j (n - j)

/-- Band `b` matches bin `j`: `b.low ≤ m * fs / n ≤ b.high` with `m = mirrorIndex n j`. -/
def bandMatches (n : ℕ) (fs : ℝ) (j : ℕ) (b : Band) : Prop :=
  b.left ≤ (mirrorIndex n j : ℝ) * fs / (n : ℝ) ∧ (mirrorIndex n j : ℝ) * fs / (n : ℝ) ≤ b.right

noncomputable instance bandMatchesDecidable (n : ℕ) (fs : ℝ) (j : ℕ) (b : Band) :
    Decidable (bandMatches n fs j b) := by
  unfold bandMatches
  infer_instance

/-- The product of the gains of exactly those bands that match bin `j`. -/
noncomputable def gainProduct (n : ℕ) (fs : ℝ) (bands : List Band) (j : ℕ) : ℝ :=
  ((bands.filter fun b => bandMatches n fs j b).map Band.gain).prod

/-- Conjugate symmetry of a length-`n` spectrum: bin `0` is real and bin `n - i` is the
complex conjugate of bin `i` for every `0 < i < n`. -/
def ConjSymmetric (n : ℕ) (X : List ℂ) : Prop :=
  (X.getD 0 0).im = 0 ∧ ∀ i, 0 < i → i < n → X.getD (n - i) 0 = (starRingEnd ℂ) (X.getD i 0)

/-! ## Buffers: reads after writes -/

theorem getD_set_eq (l : List ℂ) (i j : ℕ) (x : ℂ) :
    (l.set i x).getD j 0 = if i = j ∧ i < l.length then x else l.getD j 0 := by
  simp only [List.getD_eq_getElem?_getD, List.getElem?_set]
  by_cases hij : i = j
  · subst hij
    by_cases hi : i < l.length
    · simp [hi]
    · simp [hi, List.getElem?_eq_none (not_lt.mp hi)]
  · simp [hij]

theorem getD_of_length_le (l : List ℂ) (j : ℕ) (h : l.length ≤ j) : l.getD j 0 = 0 := by
  simp [List.getD_eq_getElem?_getD, List.getElem?_eq_none h]

theorem getD_map_range (f : ℕ → ℂ) (n j : ℕ) (h : j < n) :
    ((List.range n).map f).getD j 0 = f j := by
  simp [List.getD_eq_getElem?_getD, List.getElem?_map, List.getElem?_range h]

/-- Two buffers of the same size with the same content at every index are equal. -/
theorem ext_getD (l₁ l₂ : List ℂ) (hlen : l₁.length = l₂.length)
    (h : ∀ j, j < l₁.length → l₁.getD j 0 = l₂.getD j 0) : l₁ = l₂ := by
  apply List.ext_getElem hlen
  intro j h₁ h₂
  have := h j h₁
  simpa [List.getD_eq_getElem?_getD, List.getElem?_eq_getElem h₁,
    List.getElem?_eq_getElem h₂] using this

/-! ## The combine loop of `fft` -/

/-- Content of the buffer after one round of the combine loop. -/
theorem fftCombineStep_getD (even odd : List ℂ) (wn : ℂ) (invert : Bool) (n : ℕ)
    (b : List ℂ) (w : ℂ) (hn : b.length = n) (i : ℕ) (hi : i < n / 2) (j : ℕ) :
    (fftCombineStep even odd wn invert n (b, w) i).1.getD j 0 =
      if j = i then (even.getD i 0 + w * odd.getD i 0) / (if invert then 2 else 1)
      else if j = i + n / 2 then
        (even.getD i 0 - w * odd.getD i 0) / (if invert then 2 else 1)
      else b.getD j 0 := by
  have h₁ : i < n := by omega
  have h₂ : i + n / 2 < n := by omega
  have h₃ : ¬ (i + n / 2 = i) := by omega
  have h₄ : ¬ (i = i + n / 2) := by omega
  cases invert
  · simp only [fftCombineStep, Bool.false_eq_true, if_false, getD_set_eq, List.length_set, hn,
      div_one]
    by_cases e1 : j = i
    · subst e1
      simp only [h₃, false_and, if_false, h₁, and_self, if_true]
    · by_cases e2 : j = i + n / 2
      · subst e2
        simp only [h₂, and_self, if_true, e1, if_false]
      · have e1' : ¬ (i = j) := fun h => e1 h.symm
        have e2' : ¬ (i + n / 2 = j) := fun h => e2 h.symm
        simp only [e1, e2, e1', e2', false_and, if_false]
  · simp only [fftCombineStep, if_true, getD_set_eq, List.length_set, hn]
    by_cases e1 : j = i
    · subst e1
      simp only [h₃, h₄, false_and, if_false, h₁, and_self, if_true]
    · by_cases e2 : j = i + n / 2
      · subst e2
        simp only [h₂, h₁, h₃, h₄, and_self, if_true, e1, if_false, false_and, and_true]
      · have e1' : ¬ (i = j) := fun h => e1 h.symm
        have e2' : ¬ (i + n / 2 = j) := fun h => e2 h.symm
        simp only [e1, e2, e1', e2', false_and, if_false]

theorem fftCombineStep_length (even odd : List ℂ) (wn : ℂ) (invert : Bool) (n : ℕ)
    (b : List ℂ) (w : ℂ) (i : ℕ) :
    (fftCombineStep even odd wn invert n (b, w) i).1.length = b.length := by
  cases invert <;> simp [fftCombineStep]

theorem fftCombineStep_snd (even odd : List ℂ) (wn : ℂ) (invert : Bool) (n : ℕ)
    (b : List ℂ) (w : ℂ) (i : ℕ) :
    (fftCombineStep even odd wn invert n (b, w) i).2 = w * wn := rfl

/-- State of the combine loop after `m` rounds. -/
theorem fftCombine_fold (even odd : List ℂ) (wn : ℂ) (invert : Bool) (n : ℕ) (a : List ℂ)
    (hn : a.length = n) (m : ℕ) (hm : m ≤ n / 2) :
    ((List.range m).foldl (fftCombineStep even odd wn invert n) (a, 1)).2 = wn ^ m ∧
    ((List.range m).foldl (fftCombineStep even odd wn invert n) (a, 1)).1.length = n ∧
    ∀ j, ((List.range m).foldl (fftCombineStep even odd wn invert n) (a, 1)).1.getD j 0 =
      if j < m then
        (even.getD j 0 + wn ^ j * odd.getD j 0) / (if invert then 2 else 1)
      else if n / 2 ≤ j ∧ j < n / 2 + m then
        (even.getD (j - n / 2) 0 - wn ^ (j - n / 2) * odd.getD (j - n / 2) 0) /
          (if invert then 2 else 1)
      else a.getD j 0 := by
  induction m with
  | zero =>
    refine ⟨by simp, by simp [hn], fun j => ?_⟩
    have : ¬ (n / 2 ≤ j ∧ j < n / 2 + 0) := by omega
    simp only [List.range_zero, List.foldl_nil, Nat.not_lt_zero, if_false, this]
  | succ m ih =>
    obtain ⟨ih₁, ih₂, ih₃⟩ := ih (by omega)
    rw [List.range_succ, List.foldl_append]
    generalize (List.range m).foldl (fftCombineStep even odd wn invert n) (a, 1) = st at *
    obtain ⟨b, w⟩ := st
    simp only at ih₁ ih₂ ih₃
    subst ih₁
    simp only [List.foldl_cons, List.foldl_nil]
    refine ⟨?_, ?_, ?_⟩
    · rw [fftCombineStep_snd, pow_succ]
    · rw [fftCombineStep_length, ih₂]
    · intro j
      rw [fftCombineStep_getD even odd wn invert n b _ ih₂ m (by omega) j, ih₃ j]
      by_cases e1 : j = m
      · subst e1
        simp only [if_true, Nat.lt_succ_self]
      · by_cases e2 : j = m + n / 2
        · subst e2
          have c1 : ¬ (m + n / 2 < m + 1) := by omega
          have c2 : n / 2 ≤ m + n / 2 ∧ m + n / 2 < n / 2 + (m + 1) := by omega
          simp only [e1, if_false, if_true, c1, c2, and_self, Nat.add_sub_cancel]
        · simp only [e1, e2, if_false]
          by_cases c1 : j < m
          · have c2 : j < m + 1 := by omega
            simp only [c1, c2, if_true]
          · have c2 : ¬ (j < m + 1) := by omega
            simp only [c1, c2, if_false]
            by_cases c3 : n / 2 ≤ j ∧ j < n / 2 + m
            · have c4 : n / 2 ≤ j ∧ j < n / 2 + (m + 1) := by omega
              simp only [c3, c4, and_self, if_true]
            · have c4 : ¬ (n / 2 ≤ j ∧ j < n / 2 + (m + 1)) := by omega
              simp only [c3, c4, if_false]

/-! ## Unfolding `fft` -/

theorem fft_of_length_le_one (a : List ℂ) (invert : Bool) (h : a.length ≤ 1) :
    fft a invert = a := by
  rw [fft, if_pos h]

theorem fft_of_one_lt_length (a : List ℂ) (invert : Bool) (h : 1 < a.length) :
    fft a invert =
      ((List.range (a.length / 2)).foldl
        (fftCombineStep
          (fft ((List.range (a.length / 2)).map fun i => a.getD (2 * i) 0) invert)
          (fft ((List.range (a.length / 2)).map fun i => a.getD (2 * i + 1) 0) invert)
          (fftWn a.length invert) invert a.length) (a, 1)).1 := by
  rw [fft, if_neg (by omega)]

/-- The function `fft` never resizes its buffer. -/
theorem fft_length (a : List ℂ) (invert : Bool) : (fft a invert).length = a.length := by
  by_cases h : a.length ≤ 1
  · rw [fft_of_length_le_one a invert h]
  · rw [fft_of_one_lt_length a invert (by omega)]
    exact (fftCombine_fold _ _ _ _ _ a rfl _ le_rfl).2.1

/-- Content of the buffer after `fft` on a buffer of size at least two, in terms of the
transforms of the two halves. -/
theorem fft_getD (a : List ℂ) (invert : Bool) (h : 1 < a.length) (j : ℕ) :
    (fft a invert).getD j 0 =
      if j < a.length / 2 then
        ((fft ((List.range (a.length / 2)).map fun i => a.getD (2 * i) 0) invert).getD j 0 +
          fftWn a.length invert ^ j *
          (fft ((List.range (a.length / 2)).map fun i => a.getD (2 * i + 1) 0) invert).getD j 0) /
          (if invert then 2 else 1)
      else if a.length / 2 ≤ j ∧ j < a.length / 2 + a.length / 2 then
        ((fft ((List.range (a.length / 2)).map fun i => a.getD (2 * i) 0) invert).getD
            (j - a.length / 2) 0 -
          fftWn a.length invert ^ (j - a.length / 2) *
          (fft ((List.range (a.length / 2)).map fun i => a.getD (2 * i + 1) 0) invert).getD
            (j - a.length / 2) 0) /
          (if invert then 2 else 1)
      else a.getD j 0 := by
  rw [fft_of_one_lt_length a invert h]
  exact (fftCombine_fold _ _ _ _ _ a rfl _ le_rfl).2.2 j

/-! ## The twiddle factor -/

theorem fftWn_eq_exp (n : ℕ) (invert : Bool) :
    fftWn n invert =
      Complex.exp (((2 * Real.pi / (n : ℝ) * (if invert then 1 else -1) : ℝ) : ℂ) * Complex.I) := by
  apply Complex.ext
  · rw [Complex.exp_ofReal_mul_I_re]; rfl
  · rw [Complex.exp_ofReal_mul_I_im]; rfl

theorem fftWn_sq (h : ℕ) (hh : 0 < h) (invert : Bool) :
    fftWn (2 * h) invert ^ 2 = fftWn h invert := by
  rw [fftWn_eq_exp, fftWn_eq_exp, ← Complex.exp_nat_mul]
  congr 1
  have : (h : ℂ) ≠ 0 := by exact_mod_cast hh.ne'
  push_cast
  field_simp
  ring

theorem fftWn_pow_half (h : ℕ) (hh : 0 < h) (invert : Bool) :
    fftWn (2 * h) invert ^ h = -1 := by
  rw [fftWn_eq_exp, ← Complex.exp_nat_mul]
  have hne : (h : ℂ) ≠ 0 := by exact_mod_cast hh.ne'
  cases invert
  · have : (h : ℂ) * (((2 * Real.pi / ((2 * h : ℕ) : ℝ) * (if false = true then 1 else -1) : ℝ) : ℂ)
        * Complex.I) = -(Real.pi * Complex.I) := by
      push_cast
      field_simp
      ring
    rw [this, Complex.exp_neg, Complex.exp_pi_mul_I]
    norm_num
  · have : (h : ℂ) * (((2 * Real.pi / ((2 * h : ℕ) : ℝ) * (if true = true then 1 else -1) : ℝ) : ℂ)
        * Complex.I) = Real.pi * Complex.I := by
      push_cast
      field_simp
      ring
    rw [this, Complex.exp_pi_mul_I]

/-! ## The discrete Fourier transform computed by `fft` -/

/-- A sum over `0 .. 2h-1` split into its even- and odd-indexed terms. -/
theorem sum_range_even_odd (f : ℕ → ℂ) (h : ℕ) :
    ∑ j in Finset.range (2 * h), f j =
      ∑ j in Finset.range h, f (2 * j) + ∑ j in Finset.range h, f (2 * j + 1) := by
  induction h with
  | zero => simp
  | succ h ih =>
    rw [show 2 * (h + 1) = 2 * h + 1 + 1 by ring, Finset.sum_range_succ, Finset.sum_range_succ,
      ih, Finset.sum_range_succ, Finset.sum_range_succ]
    ring

/-- Butterfly identity, lower half: the size-`2h` sum at bin `k` from the two size-`h`
sums. -/
theorem butterfly_low (x : ℕ → ℂ) (ζ : ℂ) (h k : ℕ) :
    ∑ j in Finset.range (2 * h), x j * ζ ^ (j * k) =
      ∑ j in Finset.range h, x (2 * j) * (ζ ^ 2) ^ (j * k) +
        ζ ^ k * ∑ j in Finset.range h, x (2 * j + 1) * (ζ ^ 2) ^ (j * k) := by
  rw [sum_range_even_odd, Finset.mul_sum]
  congr 1
  · apply Finset.sum_congr rfl
    intro j _
    rw [← pow_mul, mul_assoc]
  · apply Finset.sum_congr rfl
    intro j _
    rw [← pow_mul, show (2 * j + 1) * k = k + 2 * (j * k) by ring, pow_add]
    ring

/-- Butterfly identity, upper half: bin `k + h` when `ζ ^ h = -1`. -/
theorem butterfly_high (x : ℕ → ℂ) (ζ : ℂ) (h k : ℕ) (hζ : ζ ^ h = -1) :
    ∑ j in Finset.range (2 * h), x j * ζ ^ (j * (k + h)) =
      ∑ j in Finset.range h, x (2 * j) * (ζ ^ 2) ^ (j * k) -
        ζ ^ k * ∑ j in Finset.range h, x (2 * j + 1) * (ζ ^ 2) ^ (j * k) := by
  have h2 : (ζ ^ 2) ^ h = 1 := by
    rw [← pow_mul, mul_comm, pow_mul, hζ]; norm_num
  rw [butterfly_low, pow_add, hζ]
  have e : ∀ j, (ζ ^ 2) ^ (j * (k + h)) = (ζ ^ 2) ^ (j * k) := by
    intro j
    rw [mul_add, pow_add, mul_comm j h, pow_mul (ζ ^ 2) h j, h2, one_pow, mul_one]
  simp only [e]
  ring

/-- Core correctness of `fft` on a buffer of size `2 ^ m`: bin `k` is the sum of
`a[j] * wn ^ (j * k)` with `wn` the twiddle step for the full size, divided once per
level. -/
theorem fft_getD_pow_two (invert : Bool) (m : ℕ) :
    ∀ a : List ℂ, a.length = 2 ^ m → ∀ k, k < 2 ^ m →
      (fft a invert).getD k 0 =
        (∑ j in Finset.range (2 ^ m), a.getD j 0 * fftWn (2 ^ m) invert ^ (j * k)) /
          levelDivisor invert ^ m := by
  induction m with
  | zero =>
    intro a ha k hk
    have hk0 : k = 0 := by omega
    subst hk0
    rw [fft_of_length_le_one a invert (by omega)]
    simp
  | succ m ih =>
    intro a ha k hk
    have hpos : 0 < 2 ^ m := Nat.pos_pow_of_pos m (by norm_num)
    have h2 : 2 ^ (m + 1) = 2 * 2 ^ m := pow_succ' 2 m
    have hhalf : a.length / 2 = 2 ^ m := by omega
    have hE : ((List.range (a.length / 2)).map fun i => a.getD (2 * i) 0).length = 2 ^ m := by
      simp [hhalf]
    have hO : ((List.range (a.length / 2)).map fun i => a.getD (2 * i + 1) 0).length = 2 ^ m := by
      simp [hhalf]
    have hsumE : ∀ k', ∑ j in Finset.range (2 ^ m),
        ((List.range (a.length / 2)).map fun i => a.getD (2 * i) 0).getD j 0 *
          fftWn (2 ^ m) invert ^ (j * k') =
        ∑ j in Finset.range (2 ^ m), a.getD (2 * j) 0 * fftWn (2 ^ m) invert ^ (j * k') := by
      intro k'
      apply Finset.sum_congr rfl
      intro j hj
      rw [getD_map_range _ _ _ (by rw [hhalf]; exact Finset.mem_range.mp hj)]
    have hsumO : ∀ k', ∑ j in Finset.range (2 ^ m),
        ((List.range (a.length / 2)).map fun i => a.getD (2 * i + 1) 0).getD j 0 *
          fftWn (2 ^ m) invert ^ (j * k') =
        ∑ j in Finset.range (2 ^ m), a.getD (2 * j + 1) 0 * fftWn (2 ^ m) invert ^ (j * k') := by
      intro k'
      apply Finset.sum_congr rfl
      intro j hj
      rw [getD_map_range _ _ _ (by rw [hhalf]; exact Finset.mem_range.mp hj)]
    have hd : levelDivisor invert ≠ 0 := by
      cases invert <;> simp [levelDivisor]
    rw [fft_getD a invert (by omega) k]
    by_cases hk1 : k < a.length / 2
    · rw [if_pos hk1, ih _ hE k (by omega), ih _ hO k (by omega), hsumE, hsumO, ha, h2,
        butterfly_low (fun j => a.getD j 0), fftWn_sq _ hpos]
      change _ / levelDivisor invert = _
      rw [pow_succ]
      field_simp
    · have hk2 : a.length / 2 ≤ k ∧ k < a.length / 2 + a.length / 2 := by omega
      rw [if_neg hk1, if_pos hk2, ih _ hE (k - a.length / 2) (by omega),
        ih _ hO (k - a.length / 2) (by omega), hsumE, hsumO, hhalf, ha, h2]
      have hk3 : k = (k - 2 ^ m) + 2 ^ m := by omega
      conv_rhs => rw [hk3]
      rw [butterfly_high (fun j => a.getD j 0) _ _ _ (fftWn_pow_half _ hpos invert),
        fftWn_sq _ hpos]
      change _ / levelDivisor invert = _
      rw [pow_succ]
      field_simp

/-! ## Twiddle powers as complex exponentials -/

theorem fftWn_false_pow (n e : ℕ) :
    fftWn n false ^ e = Complex.exp (-2 * Real.pi * Complex.I * e / n) := by
  rw [fftWn_eq_exp, ← Complex.exp_nat_mul]
  congr 1
  simp only [Bool.false_eq_true, if_false]
  push_cast
  ring

theorem fftWn_true_pow (n e : ℕ) :
    fftWn n true ^ e = Complex.exp (2 * Real.pi * Complex.I * e / n) := by
  rw [fftWn_eq_exp, ← Complex.exp_nat_mul]
  congr 1
  simp only [if_true]
  push_cast
  ring

theorem fftWn_mul_inverse (n : ℕ) : fftWn n false * fftWn n true = 1 := by
  rw [fftWn_eq_exp, fftWn_eq_exp, ← Complex.exp_add]
  simp

/-- The conjugate of the forward twiddle step is the inverse twiddle step. -/
theorem conj_fftWn_false (n : ℕ) : (starRingEnd ℂ) (fftWn n false) = fftWn n true := by
  apply Complex.ext
  · simp [fftWn, Real.cos_neg]
  · simp [fftWn, Real.sin_neg]

theorem fftWn_pow_size (m : ℕ) (invert : Bool) : fftWn (2 ^ m) invert ^ (2 ^ m) = 1 := by
  cases m with
  | zero =>
    rw [fftWn_eq_exp]
    cases invert
    · simp only [pow_zero, pow_one, Nat.cast_one, div_one, Bool.false_eq_true, if_false]
      push_cast
      rw [show (2 * (Real.pi : ℂ) * -1 * Complex.I) = -(2 * Real.pi * Complex.I) by ring,
        Complex.exp_neg, Complex.exp_two_pi_mul_I]
      norm_num
    · simp only [pow_zero, pow_one, Nat.cast_one, div_one, if_true]
      push_cast
      rw [mul_one, Complex.exp_two_pi_mul_I]
  | succ m =>
    have hpos : 0 < 2 ^ m := Nat.pos_pow_of_pos m (by norm_num)
    rw [pow_succ' 2 m, mul_comm 2 (2 ^ m), pow_mul, mul_comm (2 ^ m) 2,
      fftWn_pow_half _ hpos]
    norm_num

/-! ## Orthogonality of the twiddle powers -/

/-- For distinct `j, l < 2 ^ m` the ratio `wn ^ j * wn⁻¹ ^ l` is not `1`. -/
theorem fftWn_ratio_ne_one (n j l : ℕ) (hj : j < n) (hl : l < n) (hne : j ≠ l) :
    fftWn n false ^ j * fftWn n true ^ l ≠ 1 := by
  have hn : (n : ℂ) ≠ 0 := by
    have : 0 < n := by omega
    exact_mod_cast this.ne'
  rw [fftWn_false_pow, fftWn_true_pow, ← Complex.exp_add]
  intro h
  rw [Complex.exp_eq_one_iff] at h
  obtain ⟨q, hq⟩ := h
  have hpi : (2 * Real.pi * Complex.I : ℂ) ≠ 0 := Complex.two_pi_I_ne_zero
  have e : ((l : ℂ) - j) = q * n := by
    have h1 : (-2 * Real.pi * Complex.I * j / n + 2 * Real.pi * Complex.I * l / n : ℂ) =
        (2 * Real.pi * Complex.I) * (((l : ℂ) - j) / n) := by ring
    rw [h1, mul_comm (q : ℂ)] at hq
    have h2 := mul_left_cancel₀ hpi hq
    field_simp at h2
    exact h2
  have e' : ((l : ℤ) - j) = q * n := by exact_mod_cast e
  have hdvd : (n : ℤ) ∣ (l : ℤ) - j := ⟨q, by rw [e']; ring⟩
  have habs : |(l : ℤ) - j| < n := by
    rw [abs_lt]; constructor <;> omega
  have := Int.eq_zero_of_abs_lt_dvd hdvd habs
  omega

/-- Geometric sum of the ratio over a full period: `n` on the diagonal, `0` off it. -/
theorem sum_fftWn_ratio (m j l : ℕ) (hj : j < 2 ^ m) (hl : l < 2 ^ m) :
    ∑ k in Finset.range (2 ^ m), fftWn (2 ^ m) false ^ (j * k) * fftWn (2 ^ m) true ^ (k * l) =
      if j = l then ((2 ^ m : ℕ) : ℂ) else 0 := by
  have hterm : ∀ k, fftWn (2 ^ m) false ^ (j * k) * fftWn (2 ^ m) true ^ (k * l) =
      (fftWn (2 ^ m) false ^ j * fftWn (2 ^ m) true ^ l) ^ k := by
    intro k
    rw [mul_pow, ← pow_mul, ← pow_mul, mul_comm k l]
  simp only [hterm]
  by_cases hjl : j = l
  · subst hjl
    rw [if_pos rfl, ← mul_pow, fftWn_mul_inverse]
    simp
  · rw [if_neg hjl]
    have hr := fftWn_ratio_ne_one (2 ^ m) j l hj hl hjl
    have hgeom := geom_sum_mul (fftWn (2 ^ m) false ^ j * fftWn (2 ^ m) true ^ l) (2 ^ m)
    have hone : (fftWn (2 ^ m) false ^ j * fftWn (2 ^ m) true ^ l) ^ (2 ^ m) = 1 := by
      rw [mul_pow, ← pow_mul, ← pow_mul, mul_comm j, mul_comm l, pow_mul, pow_mul,
        fftWn_pow_size, fftWn_pow_size]
      simp
    rw [hone, sub_self] at hgeom
    rcases mul_eq_zero.mp hgeom with h | h
    · exact h
    · exact absurd (sub_eq_zero.mp h) hr

/-- Inverse sum of forward sums returns `n` times the original entry. -/
theorem sum_inverse_of_forward (m : ℕ) (x : ℕ → ℂ) (l : ℕ) (hl : l < 2 ^ m) :
    ∑ k in Finset.range (2 ^ m),
        (∑ j in Finset.range (2 ^ m), x j * fftWn (2 ^ m) false ^ (j * k)) *
          fftWn (2 ^ m) true ^ (k * l) =
      ((2 ^ m : ℕ) : ℂ) * x l := by
  simp only [Finset.sum_mul]
  rw [Finset.sum_comm]
  have : ∀ j ∈ Finset.range (2 ^ m),
      ∑ k in Finset.range (2 ^ m),
        x j * fftWn (2 ^ m) false ^ (j * k) * fftWn (2 ^ m) true ^ (k * l) =
      if j = l then ((2 ^ m : ℕ) : ℂ) * x j else 0 := by
    intro j hj
    have := sum_fftWn_ratio m j l (Finset.mem_range.mp hj) hl
    simp only [mul_assoc, ← Finset.mul_sum]
    rw [this]
    split_ifs <;> ring
  rw [Finset.sum_congr rfl this, Finset.sum_ite_eq' (Finset.range (2 ^ m)) l,
    if_pos (Finset.mem_range.mpr hl)]

/-! ## FFT core: forward, inverse, round trip -/

/-- C1: for a buffer `a` whose size `n` is a power of two, `fft(a, false)` leaves in `a`
(same size) the discrete Fourier transform of the input:
`out[k] = Σ_{j<n} a[j] * exp(-2πi·j·k/n)` for every `k < n`. -/
theorem fft_forward_is_dft (a : List ℂ) (m : ℕ) (ha : a.length = 2 ^ m) :
    (fft a false).length = a.length ∧
    ∀ k, k < a.length →
      (fft a false).getD k 0 =
        ∑ j in Finset.range a.length,
          a.getD j 0 * Complex.exp (-2 * Real.pi * Complex.I * j * k / a.length) := by
  refine ⟨fft_length a false, fun k hk => ?_⟩
  rw [fft_getD_pow_two false m a ha k (by omega), ha]
  simp only [levelDivisor, Bool.false_eq_true, if_false, one_pow, div_one]
  apply Finset.sum_congr rfl
  intro j _
  rw [fftWn_false_pow]
  congr 2
  push_cast
  ring

/-- C1 instance: the buffer `[1, 0, -1, 0]` of size `2 ^ 2`. -/
theorem fft_forward_is_dft_witness :
    (fft [1, 0, -1, 0] false).length = ([1, 0, -1, 0] : List ℂ).length ∧
    ∀ k, k < ([1, 0, -1, 0] : List ℂ).length →
      (fft [1, 0, -1, 0] false).getD k 0 =
        ∑ j in Finset.range ([1, 0, -1, 0] : List ℂ).length,
          ([1, 0, -1, 0] : List ℂ).getD j 0 *
            Complex.exp (-2 * Real.pi * Complex.I * j * k / ([1, 0, -1, 0] : List ℂ).length) :=
  fft_forward_is_dft [1, 0, -1, 0] 2 rfl

/-- C2: for a buffer `a` whose size `n` is a power of two, `fft(a, true)` leaves in `a`
the inverse transform normalised by exactly `1/n`:
`out[k] = (1/n) * Σ_{j<n} a[j] * exp(+2πi·j·k/n)` for every `k < n`. -/
theorem fft_inverse_is_normalized_idft (a : List ℂ) (m : ℕ) (ha : a.length = 2 ^ m) :
    (fft a true).length = a.length ∧
    ∀ k, k < a.length →
      (fft a true).getD k 0 =
        (1 / (a.length : ℂ)) *
          ∑ j in Finset.range a.length,
            a.getD j 0 * Complex.exp (2 * Real.pi * Complex.I * j * k / a.length) := by
  refine ⟨fft_length a true, fun k hk => ?_⟩
  rw [fft_getD_pow_two true m a ha k (by omega), ha]
  simp only [levelDivisor, if_true]
  rw [div_eq_mul_inv, mul_comm, one_div]
  congr 1
  · push_cast
    rfl
  · apply Finset.sum_congr rfl
    intro j _
    rw [fftWn_true_pow]
    congr 2
    push_cast
    ring

/-- C2 instance: the buffer `[2, 0, 0, 0]` of size `2 ^ 2`. -/
theorem fft_inverse_is_normalized_idft_witness :
    (fft [2, 0, 0, 0] true).length = ([2, 0, 0, 0] : List ℂ).length ∧
    ∀ k, k < ([2, 0, 0, 0] : List ℂ).length →
      (fft [2, 0, 0, 0] true).getD k 0 =
        (1 / (([2, 0, 0, 0] : List ℂ).length : ℂ)) *
          ∑ j in Finset.range ([2, 0, 0, 0] : List ℂ).length,
            ([2, 0, 0, 0] : List ℂ).getD j 0 *
              Complex.exp (2 * Real.pi * Complex.I * j * k / ([2, 0, 0, 0] : List ℂ).length) :=
  fft_inverse_is_normalized_idft [2, 0, 0, 0] 2 rfl

/-- The inverse `fft` undoes the forward `fft` on buffers of power-of-two size. -/
theorem fft_inverse_forward (s : List ℂ) (m : ℕ) (hs : s.length = 2 ^ m) :
    fft (fft s false) true = s := by
  have hlen : (fft s false).length = 2 ^ m := by rw [fft_length, hs]
  apply ext_getD
  · rw [fft_length, fft_length]
  · intro l hl
    rw [fft_length, fft_length, hs] at hl
    rw [fft_getD_pow_two true m _ hlen l hl]
    have hinner : ∀ k ∈ Finset.range (2 ^ m),
        (fft s false).getD k 0 * fftWn (2 ^ m) true ^ (k * l) =
        (∑ j in Finset.range (2 ^ m), s.getD j 0 * fftWn (2 ^ m) false ^ (j * k)) *
          fftWn (2 ^ m) true ^ (k * l) := by
      intro k hk
      rw [fft_getD_pow_two false m s hs k (Finset.mem_range.mp hk)]
      simp [levelDivisor]
    rw [Finset.sum_congr rfl hinner, sum_inverse_of_forward m (fun j => s.getD j 0) l hl]
    simp only [levelDivisor, if_true]
    push_cast
    field_simp

/-- C3: round trip.  For every buffer `s` whose size is a power of two, `fft(., false)`
followed by `fft(., true)` gives back `s`, entry by entry. -/
theorem fft_round_trip (s : List ℂ) (m : ℕ) (hs : s.length = 2 ^ m) :
    fft (fft s false) true = s ∧
    ∀ k, k < s.length → (fft (fft s false) true).getD k 0 = s.getD k 0 := by
  have h := fft_inverse_forward s m hs
  exact ⟨h, fun k _ => by rw [h]⟩

/-- C3 instance: the buffer `[1, 2, 3, 4]` of size `2 ^ 2`. -/
theorem fft_round_trip_witness :
    fft (fft [1, 2, 3, 4] false) true = [1, 2, 3, 4] ∧
    ∀ k, k < ([1, 2, 3, 4] : List ℂ).length →
      (fft (fft [1, 2, 3, 4] false) true).getD k 0 = ([1, 2, 3, 4] : List ℂ).getD k 0 :=
  fft_round_trip [1, 2, 3, 4] 2 rfl

/-! ## `next_power_of_2` within the range of `size_t` -/

/-- Loop invariant of `next_power_of_2`: started at `p = 2 ^ j` with every smaller power
below `n`, the loop exits with the least power of two that is at least `n`. -/
theorem next_power_of_2_loop_spec (n : ℕ) (hn : n ≤ 2 ^ 63) :
    ∀ fuel j, j ≤ 63 → 63 - j < fuel → (∀ i, i < j → 2 ^ i < n) →
      ∃ m, m ≤ 63 ∧ next_power_of_2_loop fuel n (2 ^ j) = some (2 ^ m) ∧ n ≤ 2 ^ m ∧
        ∀ i, i < m → 2 ^ i < n := by
  intro fuel
  induction fuel with
  | zero => intro j _ h; omega
  | succ fuel ih =>
    intro j hj hfuel hbelow
    rw [next_power_of_2_loop]
    by_cases hlt : 2 ^ j < n
    · rw [if_pos hlt]
      have hj' : j < 63 := by
        rcases Nat.lt_or_ge j 63 with h | h
        · exact h
        · have : j = 63 := by omega
          subst this
          omega
      have hpow : 2 ^ (j + 1) < 2 ^ 64 := Nat.pow_lt_pow_right (by norm_num) (by omega)
      have hshift : (2 ^ j <<< 1) % 2 ^ 64 = 2 ^ (j + 1) := by
        rw [Nat.shiftLeft_eq, pow_one, ← pow_succ]
        exact Nat.mod_eq_of_lt hpow
      rw [hshift]
      apply ih (j + 1) (by omega) (by omega)
      intro i hi
      rcases Nat.lt_or_ge i j with h | h
      · exact hbelow i h
      · have : i = j := by omega
        subst this
        exact hlt
    · rw [if_neg hlt]
      exact ⟨j, hj, rfl, by omega, hbelow⟩

/-- For `n ≤ 2 ^ 63`, `next_power_of_2 n` returns the least power of two `≥ n`. -/
theorem next_power_of_2_spec (n : ℕ) (hn : n ≤ 2 ^ 63) :
    ∃ m, m ≤ 63 ∧ next_power_of_2 n = some (2 ^ m) ∧ n ≤ 2 ^ m ∧ ∀ i, i < m → 2 ^ i < n := by
  have := next_power_of_2_loop_spec n hn 65 0 (by omega) (by omega) (fun i hi => by omega)
  simpa [next_power_of_2] using this

/-! ## Zero padding -/

/-- State of the copy loop of `padData` after `k` rounds. -/
theorem padData_fold (samples : List ℝ) (n : ℕ) (k : ℕ) (hk : k ≤ n) :
    ((List.range k).foldl
        (fun (data : List ℂ) i => data.set i ((samples.getD i 0 : ℝ) : ℂ))
        (List.replicate n 0)).length = n ∧
    ∀ j, ((List.range k).foldl
        (fun (data : List ℂ) i => data.set i ((samples.getD i 0 : ℝ) : ℂ))
        (List.replicate n 0)).getD j 0 = if j < k then ((samples.getD j 0 : ℝ) : ℂ) else 0 := by
  induction k with
  | zero =>
    refine ⟨by simp, fun j => ?_⟩
    simp only [List.range_zero, List.foldl_nil, Nat.not_lt_zero, if_false]
    by_cases hj : j < n
    · simp [List.getD_eq_getElem?_getD, List.getElem?_replicate, hj]
    · exact getD_of_length_le _ _ (by simp; omega)
  | succ k ih =>
    obtain ⟨ih₁, ih₂⟩ := ih (by omega)
    rw [List.range_succ, List.foldl_append]
    simp only [List.foldl_cons, List.foldl_nil]
    refine ⟨by rw [List.length_set, ih₁], fun j => ?_⟩
    rw [getD_set_eq, ih₁, ih₂]
    by_cases e : k = j
    · subst e
      have : k < n := by omega
      simp [this]
    · have c : (j < k + 1) ↔ (j < k) := by omega
      simp only [e, false_and, if_false, c]

theorem padData_length (samples : List ℝ) (n : ℕ) (h : samples.length ≤ n) :
    (padData samples n).length = n :=
  (padData_fold samples n samples.length h).1

/-- The padded buffer holds the samples followed by zeros. -/
theorem padData_getD (samples : List ℝ) (n : ℕ) (h : samples.length ≤ n) (j : ℕ) :
    (padData samples n).getD j 0 = ((samples.getD j 0 : ℝ) : ℂ) := by
  rw [padData, (padData_fold samples n samples.length h).2 j]
  by_cases hj : j < samples.length
  · rw [if_pos hj]
  · rw [if_neg hj]
    simp [List.getD_eq_getElem?_getD, List.getElem?_eq_none (not_lt.mp hj)]

/-- Whenever the request handlers get past `next_power_of_2`, the spectrum has the
padded size `n = 2 ^ m ≥ samples.size()`. -/
theorem forwardSpectrum_spec (samples : List ℝ) (hlen : samples.length ≤ 2 ^ 63) :
    ∃ m, forwardSpectrum samples = some (2 ^ m, fft (padData samples (2 ^ m)) false) ∧
      next_power_of_2 samples.length = some (2 ^ m) ∧
      samples.length ≤ 2 ^ m ∧ (padData samples (2 ^ m)).length = 2 ^ m := by
  obtain ⟨m, _, h₁, h₂, _⟩ := next_power_of_2_spec samples.length hlen
  exact ⟨m, by simp [forwardSpectrum, h₁], h₁, h₂, padData_length samples _ h₂⟩

/-! ## Conjugate symmetry -/

/-- Mirroring the bin index swaps the direction of the twiddle. -/
theorem fftWn_pow_mirror (m j i : ℕ) (hi : i ≤ 2 ^ m) :
    fftWn (2 ^ m) false ^ (j * (2 ^ m - i)) = fftWn (2 ^ m) true ^ (j * i) := by
  have h1 : fftWn (2 ^ m) false ^ (j * (2 ^ m - i)) * fftWn (2 ^ m) false ^ (j * i) = 1 := by
    rw [← pow_add, ← mul_add, Nat.sub_add_cancel hi, mul_comm, pow_mul, fftWn_pow_size, one_pow]
  have h2 : fftWn (2 ^ m) false ^ (j * i) * fftWn (2 ^ m) true ^ (j * i) = 1 := by
    rw [← mul_pow, fftWn_mul_inverse, one_pow]
  calc fftWn (2 ^ m) false ^ (j * (2 ^ m - i))
      = fftWn (2 ^ m) false ^ (j * (2 ^ m - i)) *
          (fftWn (2 ^ m) false ^ (j * i) * fftWn (2 ^ m) true ^ (j * i)) := by rw [h2, mul_one]
    _ = fftWn (2 ^ m) true ^ (j * i) := by rw [← mul_assoc, h1, one_mul]

theorem conj_fftWn_true (n : ℕ) : (starRingEnd ℂ) (fftWn n true) = fftWn n false := by
  rw [← conj_fftWn_false, Complex.conj_conj]

/-- The forward `fft` of a real buffer of power-of-two size is conjugate symmetric. -/
theorem fft_real_conjSymmetric (a : List ℂ) (m : ℕ) (ha : a.length = 2 ^ m)
    (hreal : ∀ j, (starRingEnd ℂ) (a.getD j 0) = a.getD j 0) :
    ConjSymmetric (2 ^ m) (fft a false) := by
  have hpos : 0 < 2 ^ m := Nat.pos_pow_of_pos m (by norm_num)
  have key : ∀ i, i < 2 ^ m → 0 < i →
      (fft a false).getD (2 ^ m - i) 0 = (starRingEnd ℂ) ((fft a false).getD i 0) := by
    intro i hi hi0
    rw [fft_getD_pow_two false m a ha _ (by omega), fft_getD_pow_two false m a ha i hi]
    simp only [levelDivisor, Bool.false_eq_true, if_false, one_pow, div_one, map_sum, map_mul,
      map_pow, hreal, conj_fftWn_false]
    apply Finset.sum_congr rfl
    intro j _
    rw [fftWn_pow_mirror m j i (by omega)]
  refine ⟨?_, fun i hi0 hi => key i hi hi0⟩
  rw [fft_getD_pow_two false m a ha 0 hpos]
  simp only [levelDivisor, Bool.false_eq_true, if_false, one_pow, div_one, mul_zero, pow_zero,
    mul_one, Complex.im_sum]
  apply Finset.sum_eq_zero
  intro j _
  have := hreal j
  exact Complex.conj_eq_iff_im.mp this

theorem padData_real (samples : List ℝ) (n : ℕ) (h : samples.length ≤ n) (j : ℕ) :
    (starRingEnd ℂ) ((padData samples n).getD j 0) = (padData samples n).getD j 0 := by
  rw [padData_getD samples n h j, Complex.conj_ofReal]

/-- C4: conjugate symmetry.  For every real sample sequence (of a size `size_t` arithmetic
handles, `≤ 2 ^ 63`), the spectrum `X` obtained by zero-padding to
`n = next_power_of_2(len)` and running `fft(., false)` has `X[n-i] = conj(X[i])` for every
`0 < i < n/2`, and bins `0` and `n/2` have zero imaginary part. -/
theorem forward_spectrum_conjugate_symmetry (samples : List ℝ)
    (hlen : samples.length ≤ 2 ^ 63) :
    ∃ n X, next_power_of_2 samples.length = some n ∧ forwardSpectrum samples = some (n, X) ∧
      X = fft (padData samples n) false ∧ X.length = n ∧
      (∀ i, 0 < i → i < n / 2 → X.getD (n - i) 0 = (starRingEnd ℂ) (X.getD i 0)) ∧
      (X.getD 0 0).im = 0 ∧ (X.getD (n / 2) 0).im = 0 := by
  obtain ⟨m, h₁, h₂, h₃, h₄⟩ := forwardSpectrum_spec samples hlen
  have hsym := fft_real_conjSymmetric (padData samples (2 ^ m)) m h₄ (padData_real samples _ h₃)
  refine ⟨2 ^ m, _, h₂, h₁, rfl, by rw [fft_length, h₄], ?_, hsym.1, ?_⟩
  · intro i hi0 hi
    exact hsym.2 i hi0 (by omega)
  · cases m with
    | zero => simpa using hsym.1
    | succ m =>
      have hpos : 0 < 2 ^ m := Nat.pos_pow_of_pos m (by norm_num)
      have h2 : 2 ^ (m + 1) = 2 * 2 ^ m := pow_succ' 2 m
      have hhalf : 2 ^ (m + 1) / 2 = 2 ^ m := by omega
      have := hsym.2 (2 ^ m) hpos (by omega)
      rw [show 2 ^ (m + 1) - 2 ^ m = 2 ^ m by omega] at this
      rw [hhalf]
      exact Complex.conj_eq_iff_im.mp this.symm

/-- C4 instance: the three-sample signal `[1, 2, 3]`, padded to size `4`. -/
theorem forward_spectrum_conjugate_symmetry_witness :
    ∃ n X, next_power_of_2 ([1, 2, 3] : List ℝ).length = some n ∧
      forwardSpectrum [1, 2, 3] = some (n, X) ∧
      X = fft (padData [1, 2, 3] n) false ∧ X.length = n ∧
      (∀ i, 0 < i → i < n / 2 → X.getD (n - i) 0 = (starRingEnd ℂ) (X.getD i 0)) ∧
      (X.getD 0 0).im = 0 ∧ (X.getD (n / 2) 0).im = 0 :=
  forward_spectrum_conjugate_symmetry [1, 2, 3] (by simp)

/-! ## The gain loop -/

/-- One round of the inner gain loop, as a function of the buffer and the index. -/
theorem applyBandStep_getD (n : ℕ) (fs : ℝ) (band : Band) (data : List ℂ)
    (hn : data.length = n) (i : ℕ) (hi : i ≤ n / 2) (hpos : 0 < n) (j : ℕ) :
    (applyBandStep n fs band data i).getD j 0 =
    data.getD j 0 *
      (if ((i : ℝ) * fs / (n : ℝ) ≥ band.left ∧ (i : ℝ) * fs / (n : ℝ) ≤ band.right) ∧
          (j = i ∨ (j = n - i ∧ 0 < i ∧ i < n / 2)) then (band.gain : ℂ) else 1) := by
  have hi' : i < n := by omega
  simp only [applyBandStep]
  by_cases hit : (i : ℝ) * fs / (n : ℝ) ≥ band.left ∧ (i : ℝ) * fs / (n : ℝ) ≤ band.right
  · rw [if_pos hit]
    by_cases hmir : 0 < i ∧ i < n / 2
    · rw [if_pos hmir]
      simp only [getD_set_eq, List.length_set, hn]
      have hne : ¬ (i = n - i) := by omega
      have hlt : n - i < n := by omega
      by_cases e1 : j = i
      · subst e1
        have e2 : ¬ (n - j = j) := by omega
        simp [hit, e2, hi']
      · by_cases e2 : j = n - i
        · subst e2
          simp [hit, hmir, hne, hlt]
        · have e1' : ¬ (i = j) := fun h => e1 h.symm
          have e2' : ¬ (n - i = j) := fun h => e2 h.symm
          simp [e1, e2, e1', e2']
    · rw [if_neg hmir]
      simp only [getD_set_eq, hn]
      by_cases e1 : j = i
      · subst e1
        simp [hit, hi']
      · have e1' : ¬ (i = j) := fun h => e1 h.symm
        have e2 : ¬ (j = n - i ∧ 0 < i ∧ i < n / 2) := fun h => hmir h.2
        simp [e1, e1', e2]
  · rw [if_neg hit]
    simp [hit]

theorem applyBandStep_length (n : ℕ) (fs : ℝ) (band : Band) (data : List ℂ) (i : ℕ) :
    (applyBandStep n fs band data i).length = data.length := by
  simp only [applyBandStep]
  split_ifs <;> simp

/-- State of the inner gain loop after `k` rounds: every bin whose governing index is below
`k` and inside the band has been multiplied by the gain exactly once. -/
theorem applyBand_fold (n : ℕ) (fs : ℝ) (band : Band) (data : List ℂ)
    (hn : data.length = n) (hshape : n = 1 ∨ 2 * (n / 2) = n) (hpos : 0 < n)
    (k : ℕ) (hk : k ≤ n / 2 + 1) :
    ((List.range k).foldl (applyBandStep n fs band) data).length = n ∧
    ∀ j, j < n → ((List.range k).foldl (applyBandStep n fs band) data).getD j 0 =
      data.getD j 0 *
        (if mirrorIndex n j < k ∧ bandMatches n fs j band then (band.gain : ℂ) else 1) := by
  induction k with
  | zero => exact ⟨by simpa using hn, fun j _ => by simp⟩
  | succ k ih =>
    obtain ⟨ih₁, ih₂⟩ := ih (by omega)
    rw [List.range_succ, List.foldl_append]
    simp only [List.foldl_cons, List.foldl_nil]
    refine ⟨by rw [applyBandStep_length, ih₁], fun j hj => ?_⟩
    rw [applyBandStep_getD n fs band _ ih₁ k (by omega) hpos j, ih₂ j hj, mul_assoc]
    congr 1
    unfold bandMatches mirrorIndex
    rcases Nat.lt_trichotomy (min j (n - j)) k with hlt | heq | hgt
    · have c1 : ¬ (j = k ∨ (j = n - k ∧ 0 < k ∧ k < n / 2)) := by omega
      have c2 : min j (n - j) < k + 1 := by omega
      simp only [hlt, c1, c2, and_false, if_false, true_and, mul_one]
    · have c1 : j = k ∨ (j = n - k ∧ 0 < k ∧ k < n / 2) := by omega
      have c2 : min j (n - j) < k + 1 := by omega
      have c3 : ¬ (min j (n - j) < k) := by omega
      simp only [c1, and_true, false_and, if_false, true_and, one_mul, heq, ge_iff_le,
        lt_self_iff_false, Nat.lt_succ_self]
    · have c1 : ¬ (j = k ∨ (j = n - k ∧ 0 < k ∧ k < n / 2)) := by omega
      have c2 : ¬ (min j (n - j) < k + 1) := by omega
      have c3 : ¬ (min j (n - j) < k) := by omega
      simp only [c1, c2, c3, and_false, false_and, if_false, mul_one]

theorem applyBand_length (n : ℕ) (fs : ℝ) (band : Band) (data : List ℂ)
    (hn : data.length = n) (hshape : n = 1 ∨ 2 * (n / 2) = n) (hpos : 0 < n) :
    (applyBand n fs data band).length = n :=
  (applyBand_fold n fs band data hn hshape hpos _ le_rfl).1

/-- After the inner loop for one band, bin `j` has been multiplied by the band's gain
exactly when the band matches it. -/
theorem applyBand_getD (n : ℕ) (fs : ℝ) (band : Band) (data : List ℂ)
    (hn : data.length = n) (hshape : n = 1 ∨ 2 * (n / 2) = n) (hpos : 0 < n)
    (j : ℕ) (hj : j < n) :
    (applyBand n fs data band).getD j 0 =
      data.getD j 0 * (if bandMatches n fs j band then (band.gain : ℂ) else 1) := by
  rw [applyBand, (applyBand_fold n fs band data hn hshape hpos _ le_rfl).2 j hj]
  have : mirrorIndex n j < n / 2 + 1 := by unfold mirrorIndex; omega
  simp only [this, true_and]

theorem gainProduct_nil (n : ℕ) (fs : ℝ) (j : ℕ) : gainProduct n fs [] j = 1 := by
  simp [gainProduct]

theorem gainProduct_cons (n : ℕ) (fs : ℝ) (b : Band) (bs : List Band) (j : ℕ) :
    gainProduct n fs (b :: bs) j =
      (if bandMatches n fs j b then b.gain else 1) * gainProduct n fs bs j := by
  by_cases h : bandMatches n fs j b
  · simp [gainProduct, List.filter_cons, h]
  · simp [gainProduct, List.filter_cons, h]

theorem pow_two_shape (m : ℕ) : (2 ^ m = 1 ∨ 2 * (2 ^ m / 2) = 2 ^ m) ∧ 0 < 2 ^ m := by
  refine ⟨?_, Nat.pos_pow_of_pos m (by norm_num)⟩
  cases m with
  | zero => left; rfl
  | succ m =>
    right
    have : 2 ^ (m + 1) = 2 * 2 ^ m := pow_succ' 2 m
    omega

/-- After the whole gain stage, bin `j` is the input bin times the product of the gains of
the bands matching it. -/
theorem applyGains_spec (n : ℕ) (fs : ℝ) (hshape : n = 1 ∨ 2 * (n / 2) = n) (hpos : 0 < n)
    (bands : List Band) :
    ∀ data : List ℂ, data.length = n →
      (applyGains n fs data bands).length = n ∧
      ∀ j, j < n →
        (applyGains n fs data bands).getD j 0 = data.getD j 0 * (gainProduct n fs bands j : ℂ) := by
  induction bands with
  | nil =>
    intro data hn
    exact ⟨by simpa [applyGains] using hn, fun j _ => by simp [applyGains, gainProduct_nil]⟩
  | cons b bs ih =>
    intro data hn
    have hlen := applyBand_length n fs b data hn hshape hpos
    obtain ⟨ih₁, ih₂⟩ := ih (applyBand n fs data b) hlen
    refine ⟨by simpa [applyGains] using ih₁, fun j hj => ?_⟩
    have h := ih₂ j hj
    simp only [applyGains, List.foldl_cons] at h ⊢
    rw [h, applyBand_getD n fs b data hn hshape hpos j hj, gainProduct_cons, mul_assoc]
    congr 1
    by_cases hm : bandMatches n fs j b
    · simp [hm]
    · simp [hm]

/-- Shape of the `/applyEqualizer` pipeline up to the gain loop, for sizes `size_t` handles. -/
theorem gainAdjustedSpectrum_spec (samples : List ℝ) (fs : ℝ) (bands : List Band)
    (hlen : samples.length ≤ 2 ^ 63) :
    ∃ m, samples.length ≤ 2 ^ m ∧
      forwardSpectrum samples = some (2 ^ m, fft (padData samples (2 ^ m)) false) ∧
      gainAdjustedSpectrum samples fs bands =
        some (2 ^ m, applyGains (2 ^ m) fs (fft (padData samples (2 ^ m)) false) bands) ∧
      (padData samples (2 ^ m)).length = 2 ^ m ∧
      (applyGains (2 ^ m) fs (fft (padData samples (2 ^ m)) false) bands).length = 2 ^ m ∧
      ∀ j, j < 2 ^ m →
        (applyGains (2 ^ m) fs (fft (padData samples (2 ^ m)) false) bands).getD j 0 =
          (fft (padData samples (2 ^ m)) false).getD j 0 * (gainProduct (2 ^ m) fs bands j : ℂ) := by
  obtain ⟨m, h₁, _, h₃, h₄⟩ := forwardSpectrum_spec samples hlen
  have hX : (fft (padData samples (2 ^ m)) false).length = 2 ^ m := by rw [fft_length, h₄]
  obtain ⟨g₁, g₂⟩ := applyGains_spec (2 ^ m) fs (pow_two_shape m).1 (pow_two_shape m).2 bands _ hX
  exact ⟨m, h₃, h₁, by simp [gainAdjustedSpectrum, h₁], h₄, g₁, g₂⟩

/-- C7: gain application formula.  After the gain loop, each bin `j < n` equals the
forward-transform bin `X[j]` times the product of the gains of exactly those bands `b`
with `b.low ≤ m * fs / n ≤ b.high`, `m = min(j, n - j)`; so overlapping bands compose
multiplicatively and no bin is multiplied twice by one band. -/
theorem gain_application_formula (samples : List ℝ) (fs : ℝ) (bands : List Band)
    (hlen : samples.length ≤ 2 ^ 63) :
    ∃ n X Y, forwardSpectrum samples = some (n, X) ∧
      gainAdjustedSpectrum samples fs bands = some (n, Y) ∧ Y.length = n ∧
      ∀ j, j < n →
        Y.getD j 0 = X.getD j 0 *
          ((((bands.filter fun b =>
              b.left ≤ ((min j (n - j) : ℕ) : ℝ) * fs / (n : ℝ) ∧
              ((min j (n - j) : ℕ) : ℝ) * fs / (n : ℝ) ≤ b.right).map Band.gain).prod : ℝ) : ℂ) := by
  obtain ⟨m, _, h₁, h₂, _, h₄, h₅⟩ := gainAdjustedSpectrum_spec samples fs bands hlen
  exact ⟨2 ^ m, _, _, h₁, h₂, h₄, fun j hj => h₅ j hj⟩

/-- C7 instance: the signal `[1, 2, 3, 4]` at `fs = 8` with two overlapping bands. -/
theorem gain_application_formula_witness :
    ∃ n X Y, forwardSpectrum [1, 2, 3, 4] = some (n, X) ∧
      gainAdjustedSpectrum [1, 2, 3, 4] 8 [⟨0, 2, 3⟩, ⟨1, 4, 5⟩] = some (n, Y) ∧ Y.length = n ∧
      ∀ j, j < n →
        Y.getD j 0 = X.getD j 0 *
          ((((([⟨0, 2, 3⟩, ⟨1, 4, 5⟩] : List Band).filter fun b =>
              b.left ≤ ((min j (n - j) : ℕ) : ℝ) * 8 / (n : ℝ) ∧
              ((min j (n - j) : ℕ) : ℝ) * 8 / (n : ℝ) ≤ b.right).map Band.gain).prod : ℝ) : ℂ) :=
  gain_application_formula [1, 2, 3, 4] 8 [⟨0, 2, 3⟩, ⟨1, 4, 5⟩] (by simp)

/-! ## Symmetry through the gain loop and the inverse transform -/

theorem gainProduct_mirror (n : ℕ) (fs : ℝ) (bands : List Band) (i : ℕ) (hi : i < n) :
    gainProduct n fs bands (n - i) = gainProduct n fs bands i := by
  have h : mirrorIndex n (n - i) = mirrorIndex n i := by unfold mirrorIndex; omega
  induction bands with
  | nil => rw [gainProduct_nil, gainProduct_nil]
  | cons b bs ih =>
    rw [gainProduct_cons, gainProduct_cons, ih]
    congr 1
    have hb : bandMatches n fs (n - i) b ↔ bandMatches n fs i b := by
      unfold bandMatches; rw [h]
    by_cases hm : bandMatches n fs i b
    · rw [if_pos hm, if_pos (hb.mpr hm)]
    · rw [if_neg hm, if_neg (fun h' => hm (hb.mp h'))]

/-- Multiplying by the (real) gain products keeps a conjugate-symmetric spectrum
conjugate symmetric. -/
theorem applyGains_conjSymmetric (m : ℕ) (fs : ℝ) (bands : List Band) (X : List ℂ)
    (hX : X.length = 2 ^ m) (hsym : ConjSymmetric (2 ^ m) X) :
    ConjSymmetric (2 ^ m) (applyGains (2 ^ m) fs X bands) := by
  obtain ⟨_, g⟩ := applyGains_spec (2 ^ m) fs (pow_two_shape m).1 (pow_two_shape m).2 bands X hX
  constructor
  · rw [g 0 (pow_two_shape m).2, Complex.mul_im, hsym.1, Complex.ofReal_im]
    ring
  · intro i hi0 hi
    rw [g (2 ^ m - i) (by omega), g i hi, hsym.2 i hi0 hi, gainProduct_mirror _ _ _ _ hi,
      map_mul, Complex.conj_ofReal]

theorem fftWn_pow_mirror_inverse (m j i : ℕ) (hi : i ≤ 2 ^ m) :
    fftWn (2 ^ m) true ^ (j * (2 ^ m - i)) = fftWn (2 ^ m) false ^ (j * i) := by
  have h1 : fftWn (2 ^ m) true ^ (j * (2 ^ m - i)) * fftWn (2 ^ m) true ^ (j * i) = 1 := by
    rw [← pow_add, ← mul_add, Nat.sub_add_cancel hi, mul_comm, pow_mul, fftWn_pow_size, one_pow]
  have h2 : fftWn (2 ^ m) true ^ (j * i) * fftWn (2 ^ m) false ^ (j * i) = 1 := by
    rw [← mul_pow, mul_comm, fftWn_mul_inverse, one_pow]
  calc fftWn (2 ^ m) true ^ (j * (2 ^ m - i))
      = fftWn (2 ^ m) true ^ (j * (2 ^ m - i)) *
          (fftWn (2 ^ m) true ^ (j * i) * fftWn (2 ^ m) false ^ (j * i)) := by rw [h2, mul_one]
    _ = fftWn (2 ^ m) false ^ (j * i) := by rw [← mul_assoc, h1, one_mul]

/-- The inverse `fft` of a conjugate-symmetric spectrum is real at every index. -/
theorem fft_inverse_real (Y : List ℂ) (m : ℕ) (hY : Y.length = 2 ^ m)
    (hsym : ConjSymmetric (2 ^ m) Y) (k : ℕ) :
    ((fft Y true).getD k 0).im = 0 := by
  have hpos : 0 < 2 ^ m := Nat.pos_pow_of_pos m (by norm_num)
  by_cases hk : k < 2 ^ m
  · apply Complex.conj_eq_iff_im.mp
    rw [fft_getD_pow_two true m Y hY k hk]
    have hd : (starRingEnd ℂ) (levelDivisor true ^ m) = levelDivisor true ^ m := by
      have h2 : (starRingEnd ℂ) (2 : ℂ) = 2 := Complex.conj_ofReal 2
      simp only [levelDivisor, if_true, map_pow, h2]
    rw [map_div₀, hd]
    congr 1
    obtain ⟨N, hN⟩ : ∃ N, 2 ^ m = N + 1 := ⟨2 ^ m - 1, by omega⟩
    have hY0 : (starRingEnd ℂ) (Y.getD 0 0) = Y.getD 0 0 := Complex.conj_eq_iff_im.mpr hsym.1
    have hr : Finset.range (2 ^ m) = Finset.range (N + 1) := by rw [hN]
    rw [map_sum, hr]
    conv_lhs => rw [Finset.sum_range_succ']
    conv_rhs => rw [Finset.sum_range_succ', ← Finset.sum_range_reflect]
    congr 1
    · apply Finset.sum_congr rfl
      intro j hj
      have hj' : j < N := Finset.mem_range.mp hj
      have e1 := hsym.2 (j + 1) (by omega) (by omega)
      have e2 : N - 1 - j + 1 = 2 ^ m - (j + 1) := by omega
      rw [map_mul, map_pow, conj_fftWn_true, ← e1, e2, mul_comm (2 ^ m - (j + 1)) k,
        fftWn_pow_mirror_inverse m k (j + 1) (by omega), mul_comm k (j + 1)]
    · rw [map_mul, hY0, map_pow, conj_fftWn_true, zero_mul, pow_zero, pow_zero]
  · rw [getD_of_length_le _ _ (by rw [fft_length, hY]; omega)]
    rfl

/-- The response of `/applyEqualizer` in terms of the gain-adjusted spectrum. -/
theorem applyEqualizer_of_spectrum (samples : List ℝ) (fs : ℝ) (bands : List Band) (n : ℕ)
    (Y : List ℂ) (h : gainAdjustedSpectrum samples fs bands = some (n, Y)) :
    applyEqualizer samples fs bands =
      some { samples := (List.range samples.length).map fun i => ((fft Y true).getD i 0).re,
             frequencies := frequencyAxis n fs,
             magnitudes := magnitudeAxis n Y } := by
  rw [applyEqualizer, h]
  rfl

/-- C8: gain application preserves conjugate symmetry.  For every real signal, `fs` and
list of bands (gains are real by type), the gain-adjusted spectrum of size `n` still has
`data[n-i] = conj(data[i])` for every `0 < i < n`. -/
theorem gain_preserves_conjugate_symmetry (samples : List ℝ) (fs : ℝ) (bands : List Band)
    (hlen : samples.length ≤ 2 ^ 63) :
    ∃ n Y, gainAdjustedSpectrum samples fs bands = some (n, Y) ∧ Y.length = n ∧
      ∀ i, 0 < i → i < n → Y.getD (n - i) 0 = (starRingEnd ℂ) (Y.getD i 0) := by
  obtain ⟨m, h₀, _, h₂, h₃, h₄, _⟩ := gainAdjustedSpectrum_spec samples fs bands hlen
  have hX : (fft (padData samples (2 ^ m)) false).length = 2 ^ m := by rw [fft_length, h₃]
  have hsym := applyGains_conjSymmetric m fs bands _ hX
    (fft_real_conjSymmetric _ m h₃ (padData_real samples _ h₀))
  exact ⟨2 ^ m, _, h₂, h₄, hsym.2⟩

/-- C8 instance: the signal `[1, 2, 3]` at `fs = 8` with the band `[1, 3]` at gain `2`. -/
theorem gain_preserves_conjugate_symmetry_witness :
    ∃ n Y, gainAdjustedSpectrum [1, 2, 3] 8 [⟨1, 3, 2⟩] = some (n, Y) ∧ Y.length = n ∧
      ∀ i, 0 < i → i < n → Y.getD (n - i) 0 = (starRingEnd ℂ) (Y.getD i 0) :=
  gain_preserves_conjugate_symmetry [1, 2, 3] 8 [⟨1, 3, 2⟩] (by simp)

/-- C9: real-valued inverse.  For every real signal, `fs` and bands, the inverse transform
of the gain-adjusted spectrum has imaginary part exactly `0` at every index, so each
returned output sample is the whole value of the buffer at that index. -/
theorem equalizer_inverse_is_real (samples : List ℝ) (fs : ℝ) (bands : List Band)
    (hlen : samples.length ≤ 2 ^ 63) :
    ∃ n Y r, gainAdjustedSpectrum samples fs bands = some (n, Y) ∧
      applyEqualizer samples fs bands = some r ∧
      (fft Y true).length = n ∧
      (∀ k, k < n → ((fft Y true).getD k 0).im = 0) ∧
      ∀ i, i < samples.length → (fft Y true).getD i 0 = ((r.samples.getD i 0 : ℝ) : ℂ) := by
  obtain ⟨m, h₀, _, h₂, h₃, h₄, _⟩ := gainAdjustedSpectrum_spec samples fs bands hlen
  have hX : (fft (padData samples (2 ^ m)) false).length = 2 ^ m := by rw [fft_length, h₃]
  have hsym := applyGains_conjSymmetric m fs bands _ hX
    (fft_real_conjSymmetric _ m h₃ (padData_real samples _ h₀))
  have him := fft_inverse_real _ m h₄ hsym
  refine ⟨2 ^ m, _, _, h₂, applyEqualizer_of_spectrum _ _ _ _ _ h₂, by rw [fft_length, h₄],
    fun k _ => him k, fun i hi => ?_⟩
  apply Complex.ext
  · simp [List.getD_eq_getElem?_getD, List.getElem?_map, List.getElem?_range hi]
  · rw [him i]; simp

/-- C9 instance: the signal `[1, 2, 3]` at `fs = 8` with the band `[1, 3]` at gain `2`. -/
theorem equalizer_inverse_is_real_witness :
    ∃ n Y r, gainAdjustedSpectrum [1, 2, 3] 8 [⟨1, 3, 2⟩] = some (n, Y) ∧
      applyEqualizer [1, 2, 3] 8 [⟨1, 3, 2⟩] = some r ∧
      (fft Y true).length = n ∧
      (∀ k, k < n → ((fft Y true).getD k 0).im = 0) ∧
      ∀ i, i < ([1, 2, 3] : List ℝ).length →
        (fft Y true).getD i 0 = ((r.samples.getD i 0 : ℝ) : ℂ) :=
  equalizer_inverse_is_real [1, 2, 3] 8 [⟨1, 3, 2⟩] (by simp)

/-! ## Identity, silence, and bands that match nothing -/

theorem calculatefft_of_spectrum (samples : List ℝ) (fs : ℝ) (n : ℕ) (X : List ℂ)
    (h : forwardSpectrum samples = some (n, X)) :
    calculatefft samples fs =
      some { frequencies := frequencyAxis n fs, magnitudes := magnitudeAxis n X } := by
  rw [calculatefft, h]
  rfl

/-- Taking real parts of the first `len` entries of the padded buffer gives the samples. -/
theorem re_padData (samples : List ℝ) (n : ℕ) (h : samples.length ≤ n) :
    ((List.range samples.length).map fun i => ((padData samples n).getD i 0).re) = samples := by
  apply List.ext_getElem
  · simp
  · intro i h₁ h₂
    rw [List.getElem_map, List.getElem_range, padData_getD samples n h, Complex.ofReal_re,
      List.getD_eq_getElem?_getD, List.getElem?_eq_getElem h₂, Option.getD_some]

/-- C5: identity equalizer.  With the single band `{low: 0, high: fs/2, gain: 1}` the
handler returns the original signal sample for sample, and the magnitudes (and
frequencies) that `/calculatefft` returns for the same signal; this holds for every `fs`,
in particular for `fs > 0`. -/
theorem identity_equalizer (samples : List ℝ) (fs : ℝ) (hlen : samples.length ≤ 2 ^ 63) :
    ∃ r r', applyEqualizer samples fs [⟨0, fs / 2, 1⟩] = some r ∧
      calculatefft samples fs = some r' ∧
      r.samples = samples ∧ r.magnitudes = r'.magnitudes ∧ r.frequencies = r'.frequencies := by
  obtain ⟨m, h₀, h₁, h₂, h₃, h₄, h₅⟩ :=
    gainAdjustedSpectrum_spec samples fs [⟨0, fs / 2, 1⟩] hlen
  have hX : (fft (padData samples (2 ^ m)) false).length = 2 ^ m := by rw [fft_length, h₃]
  have hY : applyGains (2 ^ m) fs (fft (padData samples (2 ^ m)) false) [⟨0, fs / 2, 1⟩] =
      fft (padData samples (2 ^ m)) false := by
    apply ext_getD _ _ (by rw [h₄, hX])
    intro j hj
    rw [h₄] at hj
    rw [h₅ j hj, gainProduct_cons, gainProduct_nil]
    split_ifs <;> simp
  refine ⟨_, _, applyEqualizer_of_spectrum _ _ _ _ _ h₂, calculatefft_of_spectrum _ _ _ _ h₁,
    ?_, ?_, rfl⟩
  · simp only [hY, fft_inverse_forward _ m h₃]
    exact re_padData samples _ h₀
  · simp only [hY]

/-- C5 instance: the signal `[1, 2, 3]` at `fs = 8`. -/
theorem identity_equalizer_witness :
    ∃ r r', applyEqualizer [1, 2, 3] 8 [⟨0, 8 / 2, 1⟩] = some r ∧
      calculatefft [1, 2, 3] 8 = some r' ∧
      r.samples = [1, 2, 3] ∧ r.magnitudes = r'.magnitudes ∧ r.frequencies = r'.frequencies :=
  identity_equalizer [1, 2, 3] 8 (by simp)

/-- For `fs > 0` every bin frequency `m * fs / n` with `m = min(j, n - j)` lies in
`[0, fs / 2]`. -/
theorem mirror_frequency_range (n : ℕ) (fs : ℝ) (hfs : 0 < fs) (i : ℕ) (hi : 2 * i ≤ n) :
    0 ≤ (i : ℝ) * fs / (n : ℝ) ∧ (i : ℝ) * fs / (n : ℝ) ≤ fs / 2 := by
  have hi' : (2 : ℝ) * i ≤ n := by exact_mod_cast hi
  have hi0 : (0 : ℝ) ≤ i := Nat.cast_nonneg i
  constructor
  · exact div_nonneg (mul_nonneg hi0 hfs.le) (Nat.cast_nonneg n)
  · rcases Nat.eq_zero_or_pos n with h0 | hpos
    · subst h0
      simp only [Nat.cast_zero, div_zero]
      linarith
    · have hn : (0 : ℝ) < n := by exact_mod_cast hpos
      rw [div_le_iff₀ hn]
      nlinarith

/-- The inverse `fft` of an all-zero buffer of power-of-two size is all zero. -/
theorem fft_inverse_zero (Y : List ℂ) (m : ℕ) (hY : Y.length = 2 ^ m)
    (hzero : ∀ j, j < 2 ^ m → Y.getD j 0 = 0) (k : ℕ) : (fft Y true).getD k 0 = 0 := by
  by_cases hk : k < 2 ^ m
  · rw [fft_getD_pow_two true m Y hY k hk]
    have : ∑ j in Finset.range (2 ^ m), Y.getD j 0 * fftWn (2 ^ m) true ^ (j * k) = 0 := by
      apply Finset.sum_eq_zero
      intro j hj
      rw [hzero j (Finset.mem_range.mp hj), zero_mul]
    rw [this, zero_div]
  · exact getD_of_length_le _ _ (by rw [fft_length, hY]; omega)

/-- C6: zero-gain band.  With the single band `{low: 0, high: fs/2, gain: 0}` and
`fs > 0`, every bin `0 .. n-1` of the spectrum is zeroed and every sample of the returned
output signal is `0`. -/
theorem zero_gain_band_silences (samples : List ℝ) (fs : ℝ) (hlen : samples.length ≤ 2 ^ 63)
    (hfs : 0 < fs) :
    ∃ n Y r, gainAdjustedSpectrum samples fs [⟨0, fs / 2, 0⟩] = some (n, Y) ∧
      applyEqualizer samples fs [⟨0, fs / 2, 0⟩] = some r ∧
      Y.length = n ∧ (∀ j, j < n → Y.getD j 0 = 0) ∧
      r.samples = List.replicate samples.length 0 := by
  obtain ⟨m, h₀, _, h₂, _, h₄, h₅⟩ :=
    gainAdjustedSpectrum_spec samples fs [⟨0, fs / 2, 0⟩] hlen
  have hzero : ∀ j, j < 2 ^ m →
      (applyGains (2 ^ m) fs (fft (padData samples (2 ^ m)) false) [⟨0, fs / 2, 0⟩]).getD j 0
        = 0 := by
    intro j hj
    have hmatch : bandMatches (2 ^ m) fs j ⟨0, fs / 2, 0⟩ := by
      have hshape := (pow_two_shape m).1
      exact mirror_frequency_range (2 ^ m) fs hfs (mirrorIndex (2 ^ m) j)
        (by unfold mirrorIndex; omega)
    rw [h₅ j hj, gainProduct_cons, gainProduct_nil, if_pos hmatch]
    simp
  refine ⟨2 ^ m, _, _, h₂, applyEqualizer_of_spectrum _ _ _ _ _ h₂, h₄, hzero, ?_⟩
  apply List.ext_getElem
  · simp
  · intro i h₁ _
    simp [fft_inverse_zero _ m h₄ hzero, -List.getD_eq_getElem?_getD]

/-- C6 instance: the signal `[1, 2, 3]` at `fs = 8`. -/
theorem zero_gain_band_silences_witness :
    ∃ n Y r, gainAdjustedSpectrum [1, 2, 3] 8 [⟨0, 8 / 2, 0⟩] = some (n, Y) ∧
      applyEqualizer [1, 2, 3] 8 [⟨0, 8 / 2, 0⟩] = some r ∧
      Y.length = n ∧ (∀ j, j < n → Y.getD j 0 = 0) ∧
      r.samples = List.replicate ([1, 2, 3] : List ℝ).length 0 :=
  zero_gain_band_silences [1, 2, 3] 8 (by simp) (by norm_num)

/-- A band entirely outside `[0, fs / 2]` fails the frequency test at every bin. -/
theorem applyBandStep_outside (n : ℕ) (fs : ℝ) (hfs : 0 < fs) (b : Band)
    (hout : b.right < 0 ∨ fs / 2 < b.left) (data : List ℂ) (i : ℕ) (hi : i ≤ n / 2) :
    applyBandStep n fs b data i = data := by
  obtain ⟨h₁, h₂⟩ := mirror_frequency_range n fs hfs i (by omega)
  have hmiss : ¬ ((i : ℝ) * fs / (n : ℝ) ≥ b.left ∧ (i : ℝ) * fs / (n : ℝ) ≤ b.right) := by
    rintro ⟨h₃, h₄⟩
    rcases hout with h | h <;> linarith
  simp only [applyBandStep, if_neg hmiss]

theorem applyBand_outside (n : ℕ) (fs : ℝ) (hfs : 0 < fs) (b : Band)
    (hout : b.right < 0 ∨ fs / 2 < b.left) (data : List ℂ) :
    applyBand n fs data b = data := by
  have key : ∀ l : List ℕ, (∀ i ∈ l, i ≤ n / 2) →
      l.foldl (applyBandStep n fs b) data = data := by
    intro l
    induction l with
    | nil => intro _; rfl
    | cons i l ih =>
      intro h
      rw [List.foldl_cons, applyBandStep_outside n fs hfs b hout data i
        (h i (List.mem_cons_self i l))]
      exact ih fun k hk => h k (List.mem_cons_of_mem i hk)
  apply key
  intro i hi
  have := List.mem_range.mp hi
  omega

/-- C10: a band entirely outside `[0, fs/2]` is a no-op.  For `fs > 0`, inserting at any
position a band with `high < 0` or `low > fs/2` (any gain) leaves the whole response
(output signal, frequencies, magnitudes) as it is without that band. -/
theorem band_outside_is_noop (samples : List ℝ) (fs : ℝ) (hlen : samples.length ≤ 2 ^ 63)
    (hfs : 0 < fs) (before after : List Band) (b : Band)
    (hout : b.right < 0 ∨ fs / 2 < b.left) :
    applyEqualizer samples fs (before ++ b :: after) =
      applyEqualizer samples fs (before ++ after) ∧
    ∃ r, applyEqualizer samples fs (before ++ after) = some r := by
  have hgains : ∀ n data, applyGains n fs data (before ++ b :: after) =
      applyGains n fs data (before ++ after) := by
    intro n data
    simp only [applyGains, List.foldl_append, List.foldl_cons]
    rw [applyBand_outside n fs hfs b hout]
  obtain ⟨m, _, _, h₂, _⟩ := gainAdjustedSpectrum_spec samples fs (before ++ after) hlen
  refine ⟨?_, _, applyEqualizer_of_spectrum _ _ _ _ _ h₂⟩
  simp only [applyEqualizer, gainAdjustedSpectrum, hgains]

/-- C10 instance: the signal `[1, 2, 3]` at `fs = 8`, with the band `[5, 9]` (above
`fs/2 = 4`) inserted between two bands. -/
theorem band_outside_is_noop_witness :
    applyEqualizer [1, 2, 3] 8 ([⟨0, 1, 2⟩] ++ ⟨5, 9, 7⟩ :: [⟨1, 3, 3⟩]) =
      applyEqualizer [1, 2, 3] 8 ([⟨0, 1, 2⟩] ++ [⟨1, 3, 3⟩]) ∧
    ∃ r, applyEqualizer [1, 2, 3] 8 ([⟨0, 1, 2⟩] ++ [⟨1, 3, 3⟩]) = some r :=
  band_outside_is_noop [1, 2, 3] 8 (by simp) (by norm_num) [⟨0, 1, 2⟩] [⟨1, 3, 3⟩] ⟨5, 9, 7⟩
    (Or.inr (by norm_num))

/-! ## `next_power_of_2`: least power of two -/

/-- C11: for every `n ≤ 2 ^ 63` (the range in which doubling does not wrap on 64-bit
`size_t`), in particular every positive one, `next_power_of_2(n)` returns the smallest
power of two `≥ n`: the result `p` is a power of two, `n ≤ p`, and every power of two
`q ≥ n` has `p ≤ q`, so no power of two lies in `[n, p)`. -/
theorem next_power_of_2_least (n : ℕ) (hn : n ≤ 2 ^ 63) :
    ∃ p, next_power_of_2 n = some p ∧ (∃ m, p = 2 ^ m) ∧ n ≤ p ∧
      ∀ q, (∃ k, q = 2 ^ k) → n ≤ q → p ≤ q := by
  obtain ⟨m, _, h₁, h₂, h₃⟩ := next_power_of_2_spec n hn
  refine ⟨2 ^ m, h₁, ⟨m, rfl⟩, h₂, ?_⟩
  rintro q ⟨k, rfl⟩ hq
  rcases Nat.lt_or_ge k m with hk | hk
  · have := h₃ k hk
    omega
  · exact Nat.pow_le_pow_right (by norm_num) hk

/-- C11 instance: `n = 5`, where the result is `8`. -/
theorem next_power_of_2_least_witness :
    ∃ p, next_power_of_2 5 = some p ∧ (∃ m, p = 2 ^ m) ∧ 5 ≤ p ∧
      ∀ q, (∃ k, q = 2 ^ k) → 5 ≤ q → p ≤ q :=
  next_power_of_2_least 5 (by decide)

/-! ## The empty signal -/

theorem padData_nil (n : ℕ) : padData [] n = List.replicate n 0 := rfl

theorem forwardSpectrum_nil : forwardSpectrum [] = some (1, [0]) := by
  have h : next_power_of_2 ([] : List ℝ).length = some 1 := by decide
  rw [forwardSpectrum, h]
  simp only [Option.map_some', padData_nil]
  rw [fft_of_length_le_one _ _ (by simp)]
  rfl

theorem calculatefft_nil (fs : ℝ) :
    calculatefft [] fs = some { frequencies := [0], magnitudes := [0] } := by
  rw [calculatefft_of_spectrum [] fs 1 [0] forwardSpectrum_nil]
  simp [frequencyAxis, magnitudeAxis, List.range_succ]

/-- C12, as stated, fails: for the empty sample sequence at `fs = 1` the `/calculatefft`
computation does not return empty axes. -/
theorem calculatefft_empty_not_empty :
    ¬ ∃ r, calculatefft [] 1 = some r ∧ r.frequencies = [] ∧ r.magnitudes = [] := by
  rintro ⟨r, h, hf, _⟩
  rw [calculatefft_nil] at h
  have := Option.some.inj h
  rw [← this] at hf
  exact absurd hf (by simp)

/-- C12, amended: for the empty sample sequence the `/calculatefft` computation goes
through `next_power_of_2(0)`, which returns `1`; the buffer is one zero sample, the spectrum
has the single bin `0`, and the response is `frequencies = [0]`, `magnitudes = [0]`. -/
theorem calculatefft_empty_input (fs : ℝ) :
    next_power_of_2 ([] : List ℝ).length = some 1 ∧
    forwardSpectrum [] = some (1, [0]) ∧
    calculatefft [] fs = some { frequencies := [0], magnitudes := [0] } :=
  ⟨by decide, forwardSpectrum_nil, calculatefft_nil fs⟩

/-! ## Shape of the responses -/

theorem getD_map_range_real (f : ℕ → ℝ) (n j : ℕ) (h : j < n) :
    ((List.range n).map f).getD j 0 = f j := by
  simp [List.getD_eq_getElem?_getD, List.getElem?_map, List.getElem?_range h]

/-- Bin `k` of the forward `fft` of a buffer of power-of-two size, as a sum of complex
exponentials. -/
theorem fft_forward_getD_exp (a : List ℂ) (m : ℕ) (ha : a.length = 2 ^ m) (k : ℕ)
    (hk : k < 2 ^ m) :
    (fft a false).getD k 0 =
      ∑ j in Finset.range (2 ^ m),
        a.getD j 0 * Complex.exp (-2 * Real.pi * Complex.I * j * k / ((2 ^ m : ℕ) : ℂ)) := by
  rw [fft_getD_pow_two false m a ha k hk]
  simp only [levelDivisor, Bool.false_eq_true, if_false, one_pow, div_one]
  apply Finset.sum_congr rfl
  intro j _
  rw [fftWn_false_pow]
  congr 2
  push_cast
  ring

/-- C13: output shape of `/calculatefft`.  With `n = next_power_of_2(len)` and `X` the
forward transform of the signal zero-padded to size `n`, both returned axes have `n/2 + 1`
entries, `frequencies[k] = k * fs / n` and `magnitudes[k] = |X[k]|` for `k = 0 .. n/2`,
where `X[k] = Σ_{j<n} padded[j] * exp(-2πi·j·k/n)`. -/
theorem calculatefft_shape (samples : List ℝ) (fs : ℝ) (hlen : samples.length ≤ 2 ^ 63) :
    ∃ n X r, next_power_of_2 samples.length = some n ∧
      X = fft (padData samples n) false ∧
      calculatefft samples fs = some r ∧
      r.frequencies.length = n / 2 + 1 ∧ r.magnitudes.length = n / 2 + 1 ∧
      ∀ k, k ≤ n / 2 →
        r.frequencies.getD k 0 = (k : ℝ) * fs / (n : ℝ) ∧
        r.magnitudes.getD k 0 = Complex.abs (X.getD k 0) ∧
        X.getD k 0 =
          ∑ j in Finset.range n,
            ((samples.getD j 0 : ℝ) : ℂ) *
              Complex.exp (-2 * Real.pi * Complex.I * j * k / (n : ℂ)) := by
  obtain ⟨m, h₁, h₂, h₃, h₄⟩ := forwardSpectrum_spec samples hlen
  have hpos : 0 < 2 ^ m := Nat.pos_pow_of_pos m (by norm_num)
  refine ⟨2 ^ m, _, _, h₂, rfl, calculatefft_of_spectrum _ _ _ _ h₁,
    by simp only [frequencyAxis, List.length_map, List.length_range],
    by simp only [magnitudeAxis, List.length_map, List.length_range],
    fun k hk => ⟨?_, ?_, ?_⟩⟩
  · exact getD_map_range_real _ (2 ^ m / 2 + 1) k (by omega)
  · exact getD_map_range_real _ (2 ^ m / 2 + 1) k (by omega)
  · rw [fft_forward_getD_exp _ m h₄ k (by omega)]
    apply Finset.sum_congr rfl
    intro j _
    rw [padData_getD samples _ h₃ j]

/-- C13 instance: the three-sample signal `[1, 2, 3]` at `fs = 8`. -/
theorem calculatefft_shape_witness :
    ∃ n X r, next_power_of_2 ([1, 2, 3] : List ℝ).length = some n ∧
      X = fft (padData [1, 2, 3] n) false ∧
      calculatefft [1, 2, 3] 8 = some r ∧
      r.frequencies.length = n / 2 + 1 ∧ r.magnitudes.length = n / 2 + 1 ∧
      ∀ k, k ≤ n / 2 →
        r.frequencies.getD k 0 = (k : ℝ) * 8 / (n : ℝ) ∧
        r.magnitudes.getD k 0 = Complex.abs (X.getD k 0) ∧
        X.getD k 0 =
          ∑ j in Finset.range n,
            ((([1, 2, 3] : List ℝ).getD j 0 : ℝ) : ℂ) *
              Complex.exp (-2 * Real.pi * Complex.I * j * k / (n : ℂ)) :=
  calculatefft_shape [1, 2, 3] 8 (by simp)

/-- C14: output length of `/applyEqualizer`.  For every real signal (the empty one and
sizes that are not powers of two included), `fs` and bands, the returned signal has
exactly `len(signal)` samples, and sample `i` is the real part of entry `i` of the inverse
transform of the gain-adjusted spectrum. -/
theorem equalizer_output_length (samples : List ℝ) (fs : ℝ) (bands : List Band)
    (hlen : samples.length ≤ 2 ^ 63) :
    ∃ n Y r, gainAdjustedSpectrum samples fs bands = some (n, Y) ∧
      applyEqualizer samples fs bands = some r ∧
      r.samples.length = samples.length ∧
      ∀ i, i < samples.length → r.samples.getD i 0 = ((fft Y true).getD i 0).re := by
  obtain ⟨m, _, _, h₂, _⟩ := gainAdjustedSpectrum_spec samples fs bands hlen
  refine ⟨2 ^ m, _, _, h₂, applyEqualizer_of_spectrum _ _ _ _ _ h₂, by simp, fun i hi => ?_⟩
  exact getD_map_range_real _ _ _ hi

/-- C14 instance: the three-sample signal `[1, 2, 3]` (padded to `4`) at `fs = 8`. -/
theorem equalizer_output_length_witness :
    ∃ n Y r, gainAdjustedSpectrum [1, 2, 3] 8 [⟨1, 3, 2⟩] = some (n, Y) ∧
      applyEqualizer [1, 2, 3] 8 [⟨1, 3, 2⟩] = some r ∧
      r.samples.length = ([1, 2, 3] : List ℝ).length ∧
      ∀ i, i < ([1, 2, 3] : List ℝ).length →
        r.samples.getD i 0 = ((fft Y true).getD i 0).re :=
  equalizer_output_length [1, 2, 3] 8 [⟨1, 3, 2⟩] (by simp)

/-! ## Order of the bands -/

theorem gainProduct_perm (n : ℕ) (fs : ℝ) (bands₁ bands₂ : List Band)
    (hperm : bands₁.Perm bands₂) (j : ℕ) :
    gainProduct n fs bands₁ j = gainProduct n fs bands₂ j := by
  unfold gainProduct
  exact ((hperm.filter _).map _).prod_eq

/-- C20: band order independence.  For every real signal, `fs` and band list, any
permutation of the bands gives the same gain-adjusted spectrum and the same response
(magnitudes, frequencies, output signal), in exact arithmetic. -/
theorem band_order_independence (samples : List ℝ) (fs : ℝ) (bands₁ bands₂ : List Band)
    (hlen : samples.length ≤ 2 ^ 63) (hperm : bands₁.Perm bands₂) :
    gainAdjustedSpectrum samples fs bands₁ = gainAdjustedSpectrum samples fs bands₂ ∧
    applyEqualizer samples fs bands₁ = applyEqualizer samples fs bands₂ ∧
    ∃ r, applyEqualizer samples fs bands₁ = some r := by
  obtain ⟨m, h₁, _, _, h₄⟩ := forwardSpectrum_spec samples hlen
  have hX : (fft (padData samples (2 ^ m)) false).length = 2 ^ m := by rw [fft_length, h₄]
  obtain ⟨a₁, a₂⟩ :=
    applyGains_spec (2 ^ m) fs (pow_two_shape m).1 (pow_two_shape m).2 bands₁ _ hX
  obtain ⟨b₁, b₂⟩ :=
    applyGains_spec (2 ^ m) fs (pow_two_shape m).1 (pow_two_shape m).2 bands₂ _ hX
  have hY : applyGains (2 ^ m) fs (fft (padData samples (2 ^ m)) false) bands₁ =
      applyGains (2 ^ m) fs (fft (padData samples (2 ^ m)) false) bands₂ := by
    apply ext_getD _ _ (by rw [a₁, b₁])
    intro j hj
    rw [a₁] at hj
    rw [a₂ j hj, b₂ j hj, gainProduct_perm _ _ _ _ hperm]
  have hG : gainAdjustedSpectrum samples fs bands₁ = gainAdjustedSpectrum samples fs bands₂ := by
    simp only [gainAdjustedSpectrum, h₁, Option.map_some', hY]
  refine ⟨hG, ?_, ?_⟩
  · simp only [applyEqualizer, hG]
  · have : gainAdjustedSpectrum samples fs bands₁ =
        some (2 ^ m, applyGains (2 ^ m) fs (fft (padData samples (2 ^ m)) false) bands₁) := by
      simp only [gainAdjustedSpectrum, h₁, Option.map_some']
    exact ⟨_, applyEqualizer_of_spectrum _ _ _ _ _ this⟩

/-- C20 instance: two overlapping bands on `[1, 2, 3]` at `fs = 8`, swapped. -/
theorem band_order_independence_witness :
    gainAdjustedSpectrum [1, 2, 3] 8 [⟨0, 2, 3⟩, ⟨1, 4, 5⟩] =
      gainAdjustedSpectrum [1, 2, 3] 8 [⟨1, 4, 5⟩, ⟨0, 2, 3⟩] ∧
    applyEqualizer [1, 2, 3] 8 [⟨0, 2, 3⟩, ⟨1, 4, 5⟩] =
      applyEqualizer [1, 2, 3] 8 [⟨1, 4, 5⟩, ⟨0, 2, 3⟩] ∧
    ∃ r, applyEqualizer [1, 2, 3] 8 [⟨0, 2, 3⟩, ⟨1, 4, 5⟩] = some r :=
  band_order_independence [1, 2, 3] 8 [⟨0, 2, 3⟩, ⟨1, 4, 5⟩] [⟨1, 4, 5⟩, ⟨0, 2, 3⟩] (by simp)
    (List.Perm.swap _ _ _)

/-! ## Concrete scenarios -/

/-- The forward `fft` of a two-entry buffer. -/
theorem fft_pair (x y : ℂ) : fft [x, y] false = [x + y, x - y] := by
  rw [fft]
  simp [fftCombineStep, List.range_succ, fft_of_length_le_one]

theorem fft_tone_four : fft [1, 0, -1, 0] false = [0, 2, 0, 2] := by
  rw [fft]
  simp [fftCombineStep, List.range_succ, fft_pair]
  norm_num

/-- C18: concrete scenario for `/calculatefft`.  For `samples = [1, 0, -1, 0]` and
`fs = 4` the padded size is `4` and the response is `frequencies = [0, 1, 2]`,
`magnitudes = [0, 2, 0]`. -/
theorem calculatefft_tone_scenario :
    next_power_of_2 ([1, 0, -1, 0] : List ℝ).length = some 4 ∧
    calculatefft [1, 0, -1, 0] 4 = some { frequencies := [0, 1, 2], magnitudes := [0, 2, 0] } := by
  have hn : next_power_of_2 ([1, 0, -1, 0] : List ℝ).length = some 4 := by decide
  have hpad : padData [1, 0, -1, 0] 4 = [1, 0, -1, 0] := by
    simp [padData, List.range_succ, List.replicate]
  have hspec : forwardSpectrum [1, 0, -1, 0] = some (4, [0, 2, 0, 2]) := by
    rw [forwardSpectrum, hn]
    simp only [Option.map_some', hpad, fft_tone_four]
  refine ⟨hn, ?_⟩
  rw [calculatefft_of_spectrum _ _ _ _ hspec]
  simp [frequencyAxis, magnitudeAxis, List.range_succ]

/-- The forward `fft` of an impulse of height `c` in a buffer of size `8` is flat. -/
theorem fft_impulse_eight (c : ℂ) :
    fft [c, 0, 0, 0, 0, 0, 0, 0] false = [c, c, c, c, c, c, c, c] := by
  apply ext_getD
  · rw [fft_length]; rfl
  · intro j hj
    rw [fft_length] at hj
    have hj' : j < 2 ^ 3 := hj
    rw [fft_getD_pow_two false 3 [c, 0, 0, 0, 0, 0, 0, 0] (by norm_num) j hj']
    have hj8 : j < 8 := hj
    interval_cases j <;> simp [Finset.sum_range_succ, levelDivisor]

/-- C19: concrete scenario for `/applyEqualizer`.  For the impulse
`[1, 0, 0, 0, 0, 0, 0, 0]`, `fs = 8` and the single band `low = 0, high = 4, gain = 2`,
every returned magnitude bin `k = 0 .. 4` is `2` (twice the impulse's flat magnitude `1`),
and the returned signal is `[2, 0, 0, 0, 0, 0, 0, 0]`. -/
theorem applyEqualizer_impulse_scenario :
    forwardSpectrum [1, 0, 0, 0, 0, 0, 0, 0] = some (8, [1, 1, 1, 1, 1, 1, 1, 1]) ∧
    applyEqualizer [1, 0, 0, 0, 0, 0, 0, 0] 8 [⟨0, 4, 2⟩] =
      some { samples := [2, 0, 0, 0, 0, 0, 0, 0],
             frequencies := [0, 1, 2, 3, 4],
             magnitudes := [2, 2, 2, 2, 2] } := by
  have hn : next_power_of_2 ([1, 0, 0, 0, 0, 0, 0, 0] : List ℝ).length = some 8 := by decide
  have hpad : padData [1, 0, 0, 0, 0, 0, 0, 0] 8 = [1, 0, 0, 0, 0, 0, 0, 0] := by
    simp [padData, List.range_succ, List.replicate]
  have hspec : forwardSpectrum [1, 0, 0, 0, 0, 0, 0, 0] = some (8, [1, 1, 1, 1, 1, 1, 1, 1]) := by
    rw [forwardSpectrum, hn]
    simp only [Option.map_some', hpad, fft_impulse_eight]
  obtain ⟨g₁, g₂⟩ := applyGains_spec 8 8 (Or.inr rfl) (by norm_num) [⟨0, 4, 2⟩]
    [1, 1, 1, 1, 1, 1, 1, 1] rfl
  have hY : applyGains 8 8 [1, 1, 1, 1, 1, 1, 1, 1] [⟨0, 4, 2⟩] = [2, 2, 2, 2, 2, 2, 2, 2] := by
    apply ext_getD _ _ (by rw [g₁]; rfl)
    intro j hj
    rw [g₁] at hj
    have hmatch : bandMatches 8 8 j ⟨0, 4, 2⟩ := by
      have h := mirror_frequency_range 8 8 (by norm_num) (mirrorIndex 8 j)
        (by unfold mirrorIndex; omega)
      refine ⟨?_, ?_⟩
      · exact h.1
      · have h2 := h.2
        norm_num at h2 ⊢
        exact h2
    rw [g₂ j hj, gainProduct_cons, gainProduct_nil, if_pos hmatch]
    interval_cases j <;> simp
  have hG : gainAdjustedSpectrum [1, 0, 0, 0, 0, 0, 0, 0] 8 [⟨0, 4, 2⟩] =
      some (8, [2, 2, 2, 2, 2, 2, 2, 2]) := by
    simp only [gainAdjustedSpectrum, hspec, Option.map_some', hY]
  have hinv : fft [2, 2, 2, 2, 2, 2, 2, 2] true = [2, 0, 0, 0, 0, 0, 0, 0] := by
    rw [← fft_impulse_eight 2]
    exact fft_inverse_forward _ 3 rfl
  refine ⟨hspec, ?_⟩
  rw [applyEqualizer_of_spectrum _ _ _ _ _ hG, hinv]
  simp [frequencyAxis, magnitudeAxis, List.range_succ]

/-! ## The frame loop of `stft` -/

theorem getD_map_range_of_lt {α : Type} (f : ℕ → α) (n j : ℕ) (h : j < n) (d : α) :
    ((List.range n).map f).getD j d = f j := by
  simp [List.getD_eq_getElem?_getD, List.getElem?_map, List.getElem?_range h]

/-- With `hop ≥ 1`, frame `t` starts inside the signal exactly when `t` is below the
ceiling of `L / hop`. -/
theorem start_lt_iff_lt_ceil (L hop t : ℕ) (hhop : 1 ≤ hop) :
    t * hop < L ↔ t < (L + hop - 1) / hop := by
  have h : t + 1 ≤ (L + hop - 1) / hop ↔ (t + 1) * hop ≤ L + hop - 1 :=
    Nat.le_div_iff_mul_le (by omega)
  rw [Nat.add_mul, one_mul] at h
  constructor
  · intro hlt
    exact h.mpr (by omega)
  · intro hlt
    have := h.mp hlt
    omega

/-- The integer ceiling `⌈L / hop⌉` as a quotient of naturals. -/
theorem ceil_div_eq (L hop : ℕ) (hhop : 1 ≤ hop) :
    ⌈(L : ℚ) / (hop : ℚ)⌉₊ = (L + hop - 1) / hop := by
  have hq : (0 : ℚ) < hop := by exact_mod_cast hhop
  apply le_antisymm
  · rw [Nat.ceil_le, div_le_iff₀ hq]
    have h : ¬ ((L + hop - 1) / hop * hop < L) := by
      rw [start_lt_iff_lt_ceil L hop _ hhop]
      exact lt_irrefl _
    exact_mod_cast not_lt.mp h
  · rcases Nat.eq_zero_or_pos ((L + hop - 1) / hop) with h0 | hpos
    · rw [h0]; exact Nat.zero_le _
    · have h1 : (L + hop - 1) / hop - 1 < (L + hop - 1) / hop := by omega
      have h2 := (start_lt_iff_lt_ceil L hop _ hhop).mpr h1
      have h3 : (((L + hop - 1) / hop - 1 : ℕ) : ℚ) < (L : ℚ) / (hop : ℚ) := by
        rw [lt_div_iff₀ hq]
        exact_mod_cast h2
      have := Nat.lt_ceil.mpr h3
      omega

/-- The frame loop from frame `t` on: it runs through every remaining frame start
`t * hop, (t + 1) * hop, …` below the signal size and then exits. -/
theorem stftLoop_spec (samples window : List ℝ) (windowSize hopSize : ℕ)
    (hlen : samples.length ≤ 2 ^ 63) (hhop : 1 ≤ hopSize) (hhop64 : hopSize < 2 ^ 64) :
    ∀ fuel t frames, t ≤ (samples.length + hopSize - 1) / hopSize →
      (samples.length + hopSize - 1) / hopSize - t < fuel →
      stftLoop samples window windowSize hopSize fuel (t * hopSize) frames =
        some (frames ++
          (List.range' t ((samples.length + hopSize - 1) / hopSize - t)).map fun s =>
            stftFrame samples window windowSize (s * hopSize)) := by
  intro fuel
  induction fuel with
  | zero => intro t frames _ h; omega
  | succ fuel ih =>
    intro t frames ht hfuel
    rw [stftLoop]
    by_cases hlt : t * hopSize < samples.length
    · have ht' := (start_lt_iff_lt_ceil samples.length hopSize t hhop).mp hlt
      have hnowrap : t * hopSize + hopSize < 2 ^ 64 := by
        rcases Nat.eq_zero_or_pos t with h0 | hpos
        · subst h0; omega
        · have : hopSize ≤ t * hopSize := Nat.le_mul_of_pos_left hopSize hpos
          omega
      have hnext : (t * hopSize + hopSize) % 2 ^ 64 = (t + 1) * hopSize := by
        rw [Nat.mod_eq_of_lt hnowrap, Nat.add_mul, one_mul]
      rw [if_pos hlt, hnext, ih (t + 1) _ (by omega) (by omega)]
      have hcount : (samples.length + hopSize - 1) / hopSize - t =
          ((samples.length + hopSize - 1) / hopSize - (t + 1)) + 1 := by omega
      rw [hcount, List.range'_succ, List.map_cons, List.append_assoc]
      rfl
    · have ht' : ¬ (t < (samples.length + hopSize - 1) / hopSize) := fun h =>
        hlt ((start_lt_iff_lt_ceil samples.length hopSize t hhop).mpr h)
      have hzero : (samples.length + hopSize - 1) / hopSize - t = 0 := by omega
      rw [if_neg hlt, hzero]
      simp

/-- The frames `stft` appends: one per frame start `t * hopSize` below the signal size. -/
theorem stft_eq (samples : List ℝ) (windowSize hopSize : ℕ) (frames : List (List ℝ))
    (hlen : samples.length ≤ 2 ^ 63) (hhop : 1 ≤ hopSize) (hhop64 : hopSize < 2 ^ 64) :
    stft samples windowSize hopSize frames =
      some (frames ++
        (List.range ((samples.length + hopSize - 1) / hopSize)).map fun t =>
          stftFrame samples (hannWindow windowSize) windowSize (t * hopSize)) := by
  have hT : (samples.length + hopSize - 1) / hopSize ≤ samples.length := by
    rw [Nat.div_le_iff_le_mul_add_pred (by omega)]
    have : samples.length ≤ hopSize * samples.length := Nat.le_mul_of_pos_left _ hhop
    omega
  have h := stftLoop_spec samples (hannWindow windowSize) windowSize hopSize hlen hhop hhop64
    (samples.length + 1) 0 frames (Nat.zero_le _) (by omega)
  rw [stft, ← Nat.zero_mul hopSize, h, Nat.sub_zero, List.range_eq_range']

/-- C15: spectrogram frame count.  For a signal of size `L ≤ 2 ^ 63` and every
`hopSize ≥ 1` (a `size_t`), `stft` appends exactly `⌈L / hopSize⌉` frames to
`magnitudeFrames` (none when `L = 0`), so every row of `z` has `⌈L / hopSize⌉` columns; in
particular the handler, with window `2048` and hop `512`, yields `⌈L / 512⌉` columns. -/
theorem stft_frame_count (samples : List ℝ) (windowSize hopSize : ℕ)
    (magnitudeFrames : List (List ℝ)) (fs : ℝ)
    (hlen : samples.length ≤ 2 ^ 63) (hhop : 1 ≤ hopSize) (hhop64 : hopSize < 2 ^ 64) :
    (∃ frames, stft samples windowSize hopSize magnitudeFrames = some (magnitudeFrames ++ frames) ∧
      frames.length = ⌈(samples.length : ℚ) / (hopSize : ℚ)⌉₊ ∧
      (samples.length = 0 → frames = [])) ∧
    (∃ r, spectrogramWith windowSize hopSize samples fs = some r ∧
      ∀ row, row ∈ r.z → row.length = ⌈(samples.length : ℚ) / (hopSize : ℚ)⌉₊) ∧
    (∃ r, spectrogram samples fs = some r ∧
      ∀ row, row ∈ r.z → row.length = ⌈(samples.length : ℚ) / (512 : ℚ)⌉₊) := by
  have key : ∀ ws hop : ℕ, 1 ≤ hop → hop < 2 ^ 64 →
      ∃ r, spectrogramWith ws hop samples fs = some r ∧
        ∀ row, row ∈ r.z → row.length = ⌈(samples.length : ℚ) / (hop : ℚ)⌉₊ := by
    intro ws hop h1 h2
    have hs := stft_eq samples ws hop [] hlen h1 h2
    refine ⟨_, by rw [spectrogramWith, hs]; rfl, ?_⟩
    intro row hrow
    simp only [transposeFrames, List.mem_map, List.mem_range] at hrow
    obtain ⟨f, _, rfl⟩ := hrow
    rw [ceil_div_eq _ _ h1]
    simp
  refine ⟨⟨_, stft_eq samples windowSize hopSize magnitudeFrames hlen hhop hhop64, ?_, ?_⟩,
    key windowSize hopSize hhop hhop64, ?_⟩
  · rw [ceil_div_eq _ _ hhop]
    simp
  · intro h0
    have : (samples.length + hopSize - 1) / hopSize = 0 := by
      rw [h0, Nat.zero_add]
      exact Nat.div_eq_of_lt (by omega)
    rw [this]
    rfl
  · have := key 2048 512 (by norm_num) (by norm_num)
    exact_mod_cast this

/-- C15 instance: a five-sample signal with hop `2` gives `⌈5 / 2⌉` frames. -/
theorem stft_frame_count_witness :
    (∃ frames, stft [1, 2, 3, 4, 5] 4 2 [] = some ([] ++ frames) ∧
      frames.length = ⌈(([1, 2, 3, 4, 5] : List ℝ).length : ℚ) / ((2 : ℕ) : ℚ)⌉₊ ∧
      (([1, 2, 3, 4, 5] : List ℝ).length = 0 → frames = [])) ∧
    (∃ r, spectrogramWith 4 2 [1, 2, 3, 4, 5] 8 = some r ∧
      ∀ row, row ∈ r.z →
        row.length = ⌈(([1, 2, 3, 4, 5] : List ℝ).length : ℚ) / ((2 : ℕ) : ℚ)⌉₊) ∧
    (∃ r, spectrogram [1, 2, 3, 4, 5] 8 = some r ∧
      ∀ row, row ∈ r.z →
        row.length = ⌈(([1, 2, 3, 4, 5] : List ℝ).length : ℚ) / (512 : ℚ)⌉₊) :=
  stft_frame_count [1, 2, 3, 4, 5] 4 2 [] 8 (by simp) (by norm_num) (by norm_num)

/-! ## The frames of `stft` -/

/-- State of the fill loop of the frame buffer after `k` rounds. -/
theorem stftFrameBuffer_fold (samples window : List ℝ) (windowSize start : ℕ) (k : ℕ)
    (hk : k ≤ windowSize) :
    ((List.range k).foldl
        (fun (fftData : List ℂ) (i : ℕ) =>
          if i < samples.length - start then
            fftData.set i ((samples.getD (start + i) 0 * window.getD i 0 : ℝ) : ℂ)
          else fftData.set i 0)
        (List.replicate windowSize 0)).length = windowSize ∧
    ∀ j, ((List.range k).foldl
        (fun (fftData : List ℂ) (i : ℕ) =>
          if i < samples.length - start then
            fftData.set i ((samples.getD (start + i) 0 * window.getD i 0 : ℝ) : ℂ)
          else fftData.set i 0)
        (List.replicate windowSize 0)).getD j 0 =
      if j < k ∧ j < samples.length - start then
        ((samples.getD (start + j) 0 * window.getD j 0 : ℝ) : ℂ)
      else 0 := by
  induction k with
  | zero =>
    refine ⟨by simp, fun j => ?_⟩
    simp only [List.range_zero, List.foldl_nil, Nat.not_lt_zero, false_and, if_false]
    by_cases hj : j < windowSize
    · simp [List.getD_eq_getElem?_getD, List.getElem?_replicate, hj]
    · exact getD_of_length_le _ _ (by simp; omega)
  | succ k ih =>
    obtain ⟨ih₁, ih₂⟩ := ih (by omega)
    rw [List.range_succ, List.foldl_append]
    simp only [List.foldl_cons, List.foldl_nil]
    have hkw : k < windowSize := by omega
    by_cases hrem : k < samples.length - start
    · rw [if_pos hrem]
      refine ⟨by rw [List.length_set, ih₁], fun j => ?_⟩
      rw [getD_set_eq, ih₁, ih₂]
      by_cases e : k = j
      · subst e
        simp [hkw, hrem]
      · have c : (j < k + 1) ↔ (j < k) := by omega
        simp only [e, false_and, if_false, c]
    · rw [if_neg hrem]
      refine ⟨by rw [List.length_set, ih₁], fun j => ?_⟩
      rw [getD_set_eq, ih₁, ih₂]
      by_cases e : k = j
      · subst e
        simp [hkw, hrem]
      · have c : (j < k + 1) ↔ (j < k) := by omega
        simp only [e, false_and, if_false, c]

theorem stftFrameBuffer_length (samples window : List ℝ) (windowSize start : ℕ) :
    (stftFrameBuffer samples window windowSize start).length = windowSize :=
  (stftFrameBuffer_fold samples window windowSize start windowSize le_rfl).1

/-- The frame buffer holds the windowed samples of the frame, then zeros. -/
theorem stftFrameBuffer_getD (samples window : List ℝ) (windowSize start : ℕ) (j : ℕ) :
    (stftFrameBuffer samples window windowSize start).getD j 0 =
      if j < windowSize ∧ start + j < samples.length then
        ((samples.getD (start + j) 0 * window.getD j 0 : ℝ) : ℂ)
      else 0 := by
  rw [stftFrameBuffer, (stftFrameBuffer_fold samples window windowSize start windowSize le_rfl).2 j]
  have c : (j < samples.length - start) ↔ (start + j < samples.length) := by omega
  simp only [c]

theorem hannWindow_getD (windowSize i : ℕ) (hi : i < windowSize) :
    (hannWindow windowSize).getD i 0 =
      0.5 - 0.5 * Real.cos (2 * Real.pi * (i : ℝ) / ((windowSize - 1 : ℕ) : ℝ)) :=
  getD_map_range_of_lt _ _ _ hi 0

theorem stftFrame_getD (samples window : List ℝ) (windowSize start k : ℕ)
    (hk : k ≤ windowSize / 2) :
    (stftFrame samples window windowSize start).getD k 0 =
      Complex.abs ((fft (stftFrameBuffer samples window windowSize start) false).getD k 0) :=
  getD_map_range_of_lt _ (windowSize / 2 + 1) k (by omega) 0

/-- Entry `(k, t)` of the spectrogram matrix is bin `k` of frame `t`. -/
theorem spectrogramWith_spec (windowSize hopSize : ℕ) (samples : List ℝ) (fs : ℝ)
    (hlen : samples.length ≤ 2 ^ 63) (hhop : 1 ≤ hopSize) (hhop64 : hopSize < 2 ^ 64) :
    ∃ r, spectrogramWith windowSize hopSize samples fs = some r ∧
      r.z.length = windowSize / 2 + 1 ∧
      (∀ row, row ∈ r.z → row.length = (samples.length + hopSize - 1) / hopSize) ∧
      ∀ t k, t < (samples.length + hopSize - 1) / hopSize → k ≤ windowSize / 2 →
        (r.z.getD k []).getD t 0 =
          Complex.abs ((fft (stftFrameBuffer samples (hannWindow windowSize) windowSize
            (t * hopSize)) false).getD k 0) := by
  have hs := stft_eq samples windowSize hopSize [] hlen hhop hhop64
  refine ⟨_, by rw [spectrogramWith, hs]; rfl, ?_, ?_, ?_⟩
  · simp [transposeFrames]
  · intro row hrow
    simp only [transposeFrames, List.mem_map, List.mem_range] at hrow
    obtain ⟨f, _, rfl⟩ := hrow
    simp
  · intro t k ht hk
    simp only [transposeFrames, List.nil_append, List.length_map, List.length_range]
    rw [getD_map_range_of_lt _ (windowSize / 2 + 1) k (by omega) [],
      getD_map_range_of_lt _ _ t ht 0, getD_map_range_of_lt _ _ t ht [],
      stftFrame_getD _ _ _ _ _ hk]

/-- C16: spectrogram contents.  For a signal of size `L ≤ 2 ^ 63`, a power-of-two
`windowSize = 2 ^ m ≥ 2` and `hopSize ≥ 1`, `z` has `windowSize/2 + 1` rows and one column
per frame, and `z[k][t] = |F_t[k]|` for every frame `t` and bin `k ≤ windowSize/2`, where
`F_t[k] = Σ_{i<windowSize} b_t[i] * exp(-2πi·i·k/windowSize)` and
`b_t[i] = signal[t*hopSize + i] * (0.5 - 0.5*cos(2π*i/(windowSize-1)))` when
`t*hopSize + i < L`, `b_t[i] = 0` otherwise (the divisor `windowSize - 1` is positive). -/
theorem spectrogram_contents (m hopSize : ℕ) (samples : List ℝ) (fs : ℝ) (hm : 1 ≤ m)
    (hlen : samples.length ≤ 2 ^ 63) (hhop : 1 ≤ hopSize) (hhop64 : hopSize < 2 ^ 64) :
    0 < 2 ^ m - 1 ∧
    ∃ r, spectrogramWith (2 ^ m) hopSize samples fs = some r ∧
      r.z.length = 2 ^ m / 2 + 1 ∧
      (∀ row, row ∈ r.z → row.length = ⌈(samples.length : ℚ) / (hopSize : ℚ)⌉₊) ∧
      ∀ t k, t < ⌈(samples.length : ℚ) / (hopSize : ℚ)⌉₊ → k ≤ 2 ^ m / 2 →
        (r.z.getD k []).getD t 0 =
          Complex.abs (∑ i in Finset.range (2 ^ m),
            (if t * hopSize + i < samples.length then
              ((samples.getD (t * hopSize + i) 0 *
                (0.5 - 0.5 * Real.cos (2 * Real.pi * (i : ℝ) / ((2 ^ m - 1 : ℕ) : ℝ))) : ℝ) : ℂ)
            else 0) *
            Complex.exp (-2 * Real.pi * Complex.I * i * k / ((2 ^ m : ℕ) : ℂ))) := by
  have hpow : 2 ^ 1 ≤ 2 ^ m := Nat.pow_le_pow_right (by norm_num) hm
  have h2 : 2 ^ (m - 1 + 1) = 2 * 2 ^ (m - 1) := pow_succ' 2 (m - 1)
  have hm' : m - 1 + 1 = m := by omega
  rw [hm'] at h2
  obtain ⟨r, h₁, h₂, h₃, h₄⟩ := spectrogramWith_spec (2 ^ m) hopSize samples fs hlen hhop hhop64
  rw [ceil_div_eq _ _ hhop]
  refine ⟨by omega, r, h₁, h₂, h₃, fun t k ht hk => ?_⟩
  rw [h₄ t k ht hk, fft_forward_getD_exp _ m (stftFrameBuffer_length _ _ _ _) k (by omega)]
  congr 1
  apply Finset.sum_congr rfl
  intro i hi
  have hi' : i < 2 ^ m := Finset.mem_range.mp hi
  rw [stftFrameBuffer_getD, hannWindow_getD _ _ hi']
  simp only [hi', true_and]

/-- C16 instance: the handler's window `2048 = 2 ^ 11` and hop `512` on `[1, 2, 3]`. -/
theorem spectrogram_contents_witness :
    0 < 2 ^ 11 - 1 ∧
    ∃ r, spectrogramWith (2 ^ 11) 512 [1, 2, 3] 8 = some r ∧
      r.z.length = 2 ^ 11 / 2 + 1 ∧
      (∀ row, row ∈ r.z →
        row.length = ⌈(([1, 2, 3] : List ℝ).length : ℚ) / ((512 : ℕ) : ℚ)⌉₊) ∧
      ∀ t k, t < ⌈(([1, 2, 3] : List ℝ).length : ℚ) / ((512 : ℕ) : ℚ)⌉₊ → k ≤ 2 ^ 11 / 2 →
        (r.z.getD k []).getD t 0 =
          Complex.abs (∑ i in Finset.range (2 ^ 11),
            (if t * 512 + i < ([1, 2, 3] : List ℝ).length then
              ((([1, 2, 3] : List ℝ).getD (t * 512 + i) 0 *
                (0.5 - 0.5 * Real.cos (2 * Real.pi * (i : ℝ) / ((2 ^ 11 - 1 : ℕ) : ℝ))) : ℝ) : ℂ)
            else 0) *
            Complex.exp (-2 * Real.pi * Complex.I * i * k / ((2 ^ 11 : ℕ) : ℂ))) :=
  spectrogram_contents 11 512 [1, 2, 3] 8 (by norm_num) (by simp) (by norm_num) (by norm_num)

/-! ## A window that is not a power of two -/

end SignalEqualizer
